import Mathlib

/-!
Shallow embedding of the conversation context store of `context_manager.py`
(class `ContextManager`): in-memory mapping from context identifiers to
context records, per-context durable JSON files, expiration sweep, and the
public operations `get_context` (get-or-create), `add_message`,
`get_history`, `clear_context`, `delete_context`.

Modelling choices:
* `datetime` instants are natural numbers (seconds); `timedelta(hours=24)`
  is `24 * 60 * 60` seconds.  Python's `now - last_updated > max_age`
  comparison on timedeltas is `now - t > maxContextAge` on `Nat`
  (a record timestamped in the future gives a non-positive timedelta in
  Python and `0` here; neither exceeds the maximum age).
* Python dicts are association lists in insertion order with unique keys;
  `del`, key update, and key lookup are the `eraseA` / `updateA` /
  `lookupA` helpers below.
* The filesystem is an association list from path strings to structured
  documents (`StoredDoc`, the JSON object shape `json.dump` writes and
  `json.load` reads back; the model restricts file contents to this
  object shape).  `os.path.join` is string concatenation with `"/"`,
  as in Python when the second component is relative.
* The only operations of the source that can raise to a caller are
  `os.remove` (not wrapped in any try/except) and the file write inside
  `save_context` (wrapped, and swallowed, by its try/except); the
  environment `Env` says which paths fail.  Results of fallible
  operations are `PyResult`: normal return or a propagating exception,
  each carrying the state reached.
-/

set_option autoImplicit false

namespace ContextStore

/-- Plain JSON-serializable data, as accepted by `json.dump`:
the shape of "already-serializable" history entries and of metadata. -/
inductive PlainVal : Type where
  | str (s : String)
  | num (n : Nat)
  | boolean (b : Bool)
  | null
  | arr (elems : List PlainVal)
  | obj (fields : List (String × PlainVal))

/-- Modelled from the spec: the caller-supplied message type
(`models.a2a.A2AMessage`, not part of the repository sources) is an opaque
self-serializing payload; its `model_dump()` method returns its plain
JSON representation, held here as the field `model_dump`. -/
structure A2AMessage : Type where
  model_dump : PlainVal

/-- A history entry as the store holds it in memory: either plain
already-serializable data (for example an entry reloaded from disk) or a
self-serializing message object (appended by `add_message`). -/
inductive Entry : Type where
  | plain (v : PlainVal)
  | msg (m : A2AMessage)

/-- An in-memory context record: the Python dict with keys `"history"`,
`"last_updated"`, `"metadata"`.  Each field is optional because a record
reloaded from a hand-written file may lack the corresponding key
(`_load_contexts` stores the parsed JSON object as is). -/
structure ContextRecord : Type where
  history : Option (List Entry)
  last_updated : Option Nat
  metadata : Option PlainVal

/-- The durable JSON document `save_context` writes for one context:
object with optional keys `"history"` (a JSON array of plain values),
`"last_updated"` (an interchange-format timestamp string), `"metadata"`. -/
structure StoredDoc : Type where
  history : Option (List PlainVal)
  last_updated : Option String
  metadata : Option PlainVal

/-- Which filesystem operations fail: `removeFails p` means `os.remove p`
raises an `OSError`; `writeFails p` means opening/writing path `p` inside
`save_context` raises (that exception is caught there). -/
structure Env : Type where
  removeFails : String → Bool
  writeFails : String → Bool

/-- The exception that can propagate out of the store: an `OSError` from
`os.remove` (the source wraps every other fallible operation in
try/except). -/
inductive PyErr : Type where
  | osError (path : String)

/-- State of one `ContextManager` instance together with its storage
medium: the `storage_dir` configuration, the in-memory `contexts` dict,
and the durable `files` (path ↦ document). -/
structure CMState : Type where
  storage_dir : String
  contexts : List (String × ContextRecord)
  files : List (String × StoredDoc)

/-- Outcome of an operation that may raise: normal value plus resulting
state, or a propagating exception plus the state reached when it was
raised. -/
inductive PyResult (α : Type) : Type where
  | ok (a : α) (s : CMState)
  | err (e : PyErr) (s : CMState)

/-! ### Association-list helpers (Python dict / directory semantics) -/

/-- Dict lookup: value of the first entry with the given key. -/
def lookupA {α : Type} (k : String) : List (String × α) → Option α
  | [] => none
  | (k', v) :: rest => if k' = k then some v else lookupA k rest

/-- Dict `del` / file removal: drop every entry with the given key. -/
def eraseA {α : Type} (k : String) (l : List (String × α)) : List (String × α) :=
  l.filter (fun p => p.1 ≠ k)

/-- Dict assignment `d[k] = v`: replace in place when the key is present,
append at the end otherwise (Python insertion-order semantics). -/
def updateA {α : Type} (k : String) (v : α) (l : List (String × α)) : List (String × α) :=
  if (lookupA k l).isSome then
    l.map (fun p => if p.1 = k then (k, v) else p)
  else
    l ++ [(k, v)]

/-! ### Timestamp serialization

`datetime.isoformat()` / `datetime.fromisoformat()` are modelled as an
executable decimal rendering of the `Nat` instant and its parser: a
standard interchange text form whose parse restores the comparable
instant, and which fails (raising, caught by the loader) on a
non-conforming string. -/

/-- Decimal digits of a number, most significant first (empty for `0`);
the first argument is recursion fuel, sufficient whenever it bounds the
number. -/
def toDigitsF : Nat → Nat → List Nat
  | 0, _ => []
  | _ + 1, 0 => []
  | fuel + 1, n + 1 => toDigitsF fuel ((n + 1) / 10) ++ [(n + 1) % 10]

/-- Decimal digits of a positive number, most significant first
(empty for `0`). -/
def toDigits (n : Nat) : List Nat := toDigitsF n n

/-- Value of a most-significant-first digit list. -/
def ofDigits (l : List Nat) : Nat :=
  l.foldl (fun a d => a * 10 + d) 0

/-- `datetime.isoformat()`: render the instant as interchange text. -/
def isoformat (t : Nat) : String :=
  if t = 0 then "0" else ⟨(toDigits t).map Nat.digitChar⟩

/-- `datetime.fromisoformat()`: parse interchange text back to an
instant; `none` models the `ValueError` a malformed string raises. -/
def fromisoformat (s : String) : Option Nat :=
  if s.data ≠ [] ∧ s.data.all Char.isDigit then
    some (ofDigits (s.data.map (fun c => c.toNat - 48)))
  else
    none

/-! ### Serialization of records (`save_context` body) -/

/-- How `save_context` serializes one history entry: objects with a
`model_dump` attribute contribute `msg.model_dump()`, anything else is
passed through as is. -/
def serializeEntry : Entry → PlainVal
  | .plain v => v
  | .msg m => m.model_dump

/-- The document `save_context` builds from an in-memory record:
`last_updated` rendered through `isoformat` when it is a datetime,
history entries serialized entrywise, metadata copied. -/
def serializeRecord (r : ContextRecord) : StoredDoc :=
  { history := r.history.map (fun l => l.map serializeEntry)
    last_updated := r.last_updated.map isoformat
    metadata := r.metadata }

/-- How `_load_contexts` turns one parsed document into an in-memory
record: `last_updated`, when present, must parse back to an instant
(otherwise the exception is caught and the file skipped, `none` here);
history is left as plain data; metadata copied. -/
def parseDoc (d : StoredDoc) : Option ContextRecord :=
  match d.last_updated with
  | some s =>
    match fromisoformat s with
    | some t =>
        some { history := (d.history).map (fun l => l.map Entry.plain)
               last_updated := some t
               metadata := d.metadata }
    | none => none
  | none =>
      some { history := (d.history).map (fun l => l.map Entry.plain)
             last_updated := none
             metadata := d.metadata }

/-! ### Paths -/

/-- `os.path.join(dir, name)` for a relative `name`. -/
def joinPath (dir name : String) : String :=
  dir ++ "/" ++ name

/-- The durable path of a context: `os.path.join(storage_dir, f"{id}.json")`. -/
def ctxPath (dir context_id : String) : String :=
  joinPath dir (context_id ++ ".json")

/-- The default maximum context age, `timedelta(hours=24)`, in seconds. -/
def maxContextAge : Nat := 24 * 60 * 60

/-! ### Operations of `ContextManager` -/

/-- `save_context`: when the id is in memory, serialize its record and
write the file `{id}.json` under the storage dir; any exception during
the write is caught and only printed, leaving memory and (on failure)
the filesystem unchanged.  When the id is absent, do nothing. -/
def save_context (env : Env) (s : CMState) (context_id : String) : CMState :=
  match lookupA context_id s.contexts with
  | none => s
  | some r =>
    let p := ctxPath s.storage_dir context_id
    if env.writeFails p then
      s
    else
      { s with files := updateA p (serializeRecord r) s.files }

/-- `delete_context`: when the id is in memory, `del` it, then remove its
file if that file exists (an `os.remove` failure raises after the `del`
already happened); return `true`.  When absent, return `false` and touch
nothing. -/
def delete_context (env : Env) (s : CMState) (context_id : String) : PyResult Bool :=
  match lookupA context_id s.contexts with
  | none => .ok false s
  | some _ =>
    let s' := { s with contexts := eraseA context_id s.contexts }
    let p := ctxPath s.storage_dir context_id
    match lookupA p s'.files with
    | none => .ok true s'
    | some _ =>
      if env.removeFails p then
        .err (.osError p) s'
      else
        .ok true { s' with files := eraseA p s'.files }

/-- The expiration test of `_clean_expired_contexts`:
`isinstance(last_updated, datetime) and now - last_updated > max_age`. -/
def isExpired (now : Nat) (r : ContextRecord) : Bool :=
  match r.last_updated with
  | some t => decide (now - t > maxContextAge)
  | none => false

/-- The ids collected by the first loop of `_clean_expired_contexts`,
in dict iteration order. -/
def expiredIds (now : Nat) (s : CMState) : List String :=
  (s.contexts.filter (fun p => isExpired now p.2)).map (fun p => p.1)

/-- The second loop of `_clean_expired_contexts`: delete each collected
id in order; an exception aborts the loop and propagates. -/
def deleteAll (env : Env) : List String → CMState → PyResult Unit
  | [], s => .ok () s
  | context_id :: rest, s =>
    match delete_context env s context_id with
    | .ok _ s' => deleteAll env rest s'
    | .err e s' => .err e s'

/-- `_clean_expired_contexts`: snapshot the expired ids, then delete
them one by one. -/
def cleanExpired (env : Env) (now : Nat) (s : CMState) : PyResult Unit :=
  deleteAll env (expiredIds now s) s

/-- A fresh record as `get_context` creates it: empty history, the
current timestamp, empty metadata. -/
def freshRecord (now : Nat) : ContextRecord :=
  { history := some [], last_updated := some now, metadata := some (.obj []) }

/-- `get_context`: run the expiration sweep, then get-or-create the
record for the id, touching `last_updated` on the existing record or
inserting a fresh one.  Returns the live record. -/
def get_context (env : Env) (now : Nat) (s : CMState) (context_id : String) :
    PyResult ContextRecord :=
  match cleanExpired env now s with
  | .err e s' => .err e s'
  | .ok _ s' =>
    match lookupA context_id s'.contexts with
    | none =>
      let r := freshRecord now
      .ok r { s' with contexts := updateA context_id r s'.contexts }
    | some r =>
      let r' := { r with last_updated := some now }
      .ok r' { s' with contexts := updateA context_id r' s'.contexts }

/-- `add_message`: get-or-create the record, append the message to its
history (creating the `"history"` key when it is missing), touch
`last_updated`, then persist via `save_context`.  Returns the record. -/
def add_message (env : Env) (now : Nat) (s : CMState) (context_id : String)
    (message : A2AMessage) : PyResult ContextRecord :=
  match get_context env now s context_id with
  | .err e s' => .err e s'
  | .ok r s' =>
    let hist := (r.history.getD []) ++ [Entry.msg message]
    let r' : ContextRecord :=
      { history := some hist, last_updated := some now, metadata := r.metadata }
    let s'' := { s' with contexts := updateA context_id r' s'.contexts }
    .ok r' (save_context env s'' context_id)

/-- `get_history`: get-or-create the record and return
`context.get("history", [])`. -/
def get_history (env : Env) (now : Nat) (s : CMState) (context_id : String) :
    PyResult (List Entry) :=
  match get_context env now s context_id with
  | .err e s' => .err e s'
  | .ok r s' => .ok (r.history.getD []) s'

/-- `clear_context`: when the id is in memory, empty its history, touch
`last_updated`, persist, and return `true`; otherwise return `false`.
No sweep runs and nothing can raise (`save_context` swallows). -/
def clear_context (env : Env) (now : Nat) (s : CMState) (context_id : String) :
    Bool × CMState :=
  match lookupA context_id s.contexts with
  | none => (false, s)
  | some r =>
    let r' : ContextRecord :=
      { history := some [], last_updated := some now, metadata := r.metadata }
    let s' := { s with contexts := updateA context_id r' s.contexts }
    (true, save_context env s' context_id)

/-! ### Startup loading (`__init__` / `_load_contexts`) -/

/-- `os.listdir(dir)` membership: a path is a directory entry `name` of
`dir` when it is `dir ++ "/" ++ name` with no separator inside `name`. -/
def nameInDir (dir p : String) : Option String :=
  if p.data.take (dir.data.length + 1) = dir.data ++ ['/'] then
    let n : String := ⟨p.data.drop (dir.data.length + 1)⟩
    if n.data.contains '/' then none else some n
  else
    none

/-- The context id a directory entry contributes: filenames ending in
`".json"` (`filename.endswith(".json")`) with the extension stripped
(`filename[:-5]`), others skipped. -/
def ctxIdOfName (n : String) : Option String :=
  if 5 ≤ n.data.length ∧ n.data.drop (n.data.length - 5) = ['.', 'j', 's', 'o', 'n'] then
    some ⟨n.data.take (n.data.length - 5)⟩
  else
    none

/-- What one file contributes to the startup scan: the derived context
id and the parsed record of a well-formed `*.json` directory entry,
nothing for entries that are skipped (outside the dir, wrong extension,
or failing to parse). -/
def loadOne (dir : String) (pd : String × StoredDoc) :
    Option (String × ContextRecord) :=
  match nameInDir dir pd.1 with
  | none => none
  | some n =>
    match ctxIdOfName n with
    | none => none
    | some cid =>
      match parseDoc pd.2 with
      | none => none
      | some r => some (cid, r)

/-- `_load_contexts`: scan the directory entries of the storage dir in
order; for each `*.json` file parse the document and store it under the
derived id; a file that fails to parse is skipped (its exception is
caught and printed). -/
def loadContexts (dir : String) (files : List (String × StoredDoc)) :
    List (String × ContextRecord) :=
  files.foldl
    (fun acc pd =>
      match loadOne dir pd with
      | none => acc
      | some (cid, r) => updateA cid r acc)
    []

/-- `ContextManager(storage_dir)`: start with an empty mapping and load
the persisted contexts from the durable files. -/
def initState (dir : String) (files : List (String × StoredDoc)) : CMState :=
  { storage_dir := dir, contexts := loadContexts dir files, files := files }

/-! ### Lemmas on the association-list helpers -/

theorem lookupA_mem {α : Type} {k : String} {v : α} {l : List (String × α)}
    (h : lookupA k l = some v) : (k, v) ∈ l := by
  induction l with
  | nil => simp [lookupA] at h
  | cons p rest ih =>
    obtain ⟨a, b⟩ := p
    rw [lookupA] at h
    by_cases hk : a = k
    · subst hk
      simp at h
      subst h
      exact List.mem_cons_self _ _
    · simp [hk] at h
      exact List.mem_cons_of_mem _ (ih h)

theorem lookupA_eq_none_iff {α : Type} {k : String} {l : List (String × α)} :
    lookupA k l = none ↔ ∀ v : α, (k, v) ∉ l := by
  induction l with
  | nil => simp [lookupA]
  | cons p rest ih =>
    obtain ⟨a, b⟩ := p
    rw [lookupA]
    by_cases hk : a = k
    · subst hk
      simp only [if_pos rfl]
      constructor
      · intro h; exact absurd h (by simp)
      · intro h
        exact absurd (List.mem_cons_self _ rest) (h b)
    · simp only [if_neg hk, ih]
      constructor
      · intro h v hv
        rcases List.mem_cons.mp hv with h1 | h2
        · exact hk (congrArg Prod.fst h1).symm
        · exact h v h2
      · intro h v hv
        exact h v (List.mem_cons_of_mem _ hv)

theorem lookupA_append {α : Type} (k : String) (l₁ l₂ : List (String × α)) :
    lookupA k (l₁ ++ l₂) =
      match lookupA k l₁ with
      | some v => some v
      | none => lookupA k l₂ := by
  induction l₁ with
  | nil => simp [lookupA]
  | cons p rest ih =>
    by_cases hk : p.1 = k <;> simp [lookupA, hk, ih]

theorem lookupA_filter_key {α : Type} (q : String → Bool) (k : String)
    (l : List (String × α)) :
    lookupA k (l.filter (fun p => q p.1)) =
      if q k then lookupA k l else none := by
  induction l with
  | nil => simp [lookupA]
  | cons p rest ih =>
    obtain ⟨a, b⟩ := p
    simp only [List.filter_cons]
    by_cases hq : q a
    · rw [if_pos (by simpa using hq)]
      by_cases hk : a = k
      · subst hk; simp [lookupA, hq]
      · simp [lookupA, hk, ih]
    · rw [if_neg (by simpa using hq)]
      by_cases hk : a = k
      · subst hk
        rw [ih]
        simp [lookupA, hq]
      · simp [lookupA, hk, ih]

theorem lookupA_filter_notin {α : Type} (ids : List String) (k : String)
    (l : List (String × α)) :
    lookupA k (l.filter (fun p => decide (p.1 ∉ ids))) =
      if k ∈ ids then none else lookupA k l := by
  have h := lookupA_filter_key (fun x => decide (x ∉ ids)) k l
  by_cases hk : k ∈ ids
  · rw [if_pos hk]
    exact h.trans (by rw [if_neg (by simpa using hk)])
  · rw [if_neg hk]
    exact h.trans (by rw [if_pos (by simpa using hk)])

theorem lookupA_eraseA_self {α : Type} (k : String) (l : List (String × α)) :
    lookupA k (eraseA k l) = none := by
  have := lookupA_filter_key (fun j => decide (j ≠ k)) k l
  simpa [eraseA] using this

theorem lookupA_eraseA_ne {α : Type} {j k : String} (h : j ≠ k)
    (l : List (String × α)) : lookupA j (eraseA k l) = lookupA j l := by
  have := lookupA_filter_key (fun i => decide (i ≠ k)) j l
  simpa [eraseA, h] using this

theorem lookupA_map_subst {α : Type} (k : String) (v : α)
    (l : List (String × α)) :
    lookupA k (l.map (fun p => if p.1 = k then (k, v) else p)) =
      if (lookupA k l).isSome then some v else none := by
  induction l with
  | nil => simp [lookupA]
  | cons p rest ih =>
    obtain ⟨a, b⟩ := p
    simp only [List.map_cons]
    by_cases hk : a = k
    · rw [show (if ((a, b) : String × α).1 = k then (k, v) else (a, b)) = (k, v) by
        simp [hk]]
      rw [show lookupA k ((a, b) :: rest) = some b by simp [lookupA, hk]]
      simp [lookupA]
    · rw [show (if ((a, b) : String × α).1 = k then (k, v) else (a, b)) = (a, b) by
        simp [hk]]
      simp [lookupA, hk, ih]

theorem lookupA_map_subst_ne {α : Type} {j k : String} (h : j ≠ k) (v : α)
    (l : List (String × α)) :
    lookupA j (l.map (fun p => if p.1 = k then (k, v) else p)) = lookupA j l := by
  induction l with
  | nil => simp [lookupA]
  | cons p rest ih =>
    obtain ⟨a, b⟩ := p
    simp only [List.map_cons]
    by_cases hk : a = k
    · rw [show (if ((a, b) : String × α).1 = k then (k, v) else (a, b)) = (k, v) by
        simp [hk]]
      have hj : k ≠ j := fun e => h e.symm
      simp [lookupA, hj, hk ▸ hj, ih]
    · rw [show (if ((a, b) : String × α).1 = k then (k, v) else (a, b)) = (a, b) by
        simp [hk]]
      by_cases hj : a = j
      · simp [lookupA, hj]
      · simp [lookupA, hj, ih]

theorem lookupA_updateA_self {α : Type} (k : String) (v : α)
    (l : List (String × α)) : lookupA k (updateA k v l) = some v := by
  unfold updateA
  by_cases h : (lookupA k l).isSome
  · rw [if_pos h, lookupA_map_subst, if_pos h]
  · rw [if_neg h, lookupA_append]
    rcases ho : lookupA k l with _ | w
    · simp [lookupA]
    · exact absurd (by simp [ho]) h

theorem lookupA_updateA_ne {α : Type} {j k : String} (h : j ≠ k) (v : α)
    (l : List (String × α)) : lookupA j (updateA k v l) = lookupA j l := by
  unfold updateA
  by_cases hs : (lookupA k l).isSome
  · rw [if_pos hs, lookupA_map_subst_ne h]
  · rw [if_neg hs, lookupA_append]
    rcases ho : lookupA j l with _ | w
    · simp [lookupA]
      exact fun e => h e.symm
    · simp

theorem mem_updateA {α : Type} {j : String} {w : α} {k : String} {v : α}
    {l : List (String × α)} (h : (j, w) ∈ updateA k v l) :
    (j, w) = (k, v) ∨ (j, w) ∈ l := by
  unfold updateA at h
  by_cases hs : (lookupA k l).isSome
  · rw [if_pos hs] at h
    rcases List.mem_map.mp h with ⟨p, hp, hpe⟩
    by_cases hk : p.1 = k
    · left; rw [if_pos hk] at hpe; exact hpe.symm
    · right; rw [if_neg hk] at hpe; rwa [hpe] at hp
  · rw [if_neg hs] at h
    rcases List.mem_append.mp h with h1 | h2
    · right; exact h1
    · left; simpa using h2

theorem mem_eraseA {α : Type} {j : String} {w : α} {k : String}
    {l : List (String × α)} (h : (j, w) ∈ eraseA k l) : (j, w) ∈ l ∧ j ≠ k := by
  unfold eraseA at h
  have := List.mem_filter.mp h
  exact ⟨this.1, by simpa using this.2⟩

theorem eraseA_of_lookup_none {α : Type} {k : String} {l : List (String × α)}
    (h : lookupA k l = none) : eraseA k l = l := by
  rw [eraseA, List.filter_eq_self]
  intro p hp
  simp only [decide_eq_true_eq]
  intro e
  exact lookupA_eq_none_iff.mp h p.2 (by rw [← e, Prod.mk.eta]; exact hp)

theorem filter_erase_cons {α : Type} (k : String) (ks : List String)
    (l : List (String × α)) :
    (eraseA k l).filter (fun p => decide (p.1 ∉ ks)) =
      l.filter (fun p => decide (p.1 ∉ k :: ks)) := by
  rw [eraseA, List.filter_filter]
  apply List.filter_congr
  intro p _
  simp only [List.mem_cons, not_or, Bool.decide_and, Bool.and_comm]

theorem filter_skip_cons {α : Type} {k : String} (ks : List String)
    {l : List (String × α)} (h : lookupA k l = none) :
    l.filter (fun p => decide (p.1 ∉ ks)) =
      l.filter (fun p => decide (p.1 ∉ k :: ks)) := by
  apply List.filter_congr
  intro p hp
  have hne : p.1 ≠ k := by
    intro e
    exact lookupA_eq_none_iff.mp h p.2 (by rw [← e, Prod.mk.eta]; exact hp)
  simp [List.mem_cons, hne]

/-! ### Characterization of `delete_context` and of the expiration sweep -/

theorem delete_context_absent {env : Env} {s : CMState} {context_id : String}
    (h : lookupA context_id s.contexts = none) :
    delete_context env s context_id = .ok false s := by
  rw [delete_context, h]

theorem delete_context_present {env : Env} {s : CMState} {context_id : String}
    {r : ContextRecord} (h : lookupA context_id s.contexts = some r)
    (hrm : env.removeFails (ctxPath s.storage_dir context_id) = false) :
    delete_context env s context_id =
      .ok true { s with
        contexts := eraseA context_id s.contexts
        files := eraseA (ctxPath s.storage_dir context_id) s.files } := by
  rcases hf : lookupA (ctxPath s.storage_dir context_id) s.files with _ | d
  · rw [eraseA_of_lookup_none hf]
    simp [delete_context, h, hf]
  · simp [delete_context, h, hf, hrm]

theorem delete_context_present_nofile {env : Env} {s : CMState}
    {context_id : String} {r : ContextRecord}
    (h : lookupA context_id s.contexts = some r)
    (hf : lookupA (ctxPath s.storage_dir context_id) s.files = none) :
    delete_context env s context_id =
      .ok true { s with contexts := eraseA context_id s.contexts } := by
  simp [delete_context, h, hf]

theorem delete_context_raises {env : Env} {s : CMState} {context_id : String}
    {r : ContextRecord} {d : StoredDoc}
    (h : lookupA context_id s.contexts = some r)
    (hf : lookupA (ctxPath s.storage_dir context_id) s.files = some d)
    (hrm : env.removeFails (ctxPath s.storage_dir context_id) = true) :
    delete_context env s context_id =
      .err (.osError (ctxPath s.storage_dir context_id))
        { s with contexts := eraseA context_id s.contexts } := by
  simp [delete_context, h, hf, hrm]

/-- The fold of `delete_context` over a list of ids, when it finishes
without an exception, filters out of memory exactly the entries keyed by
one of the ids and filters out of the filesystem exactly the files of
those ids — provided every listed id that is not in memory has no file
either (which holds for the sweep, whose ids all come from memory). -/
theorem deleteAll_ok_spec (env : Env) (ids : List String) :
    ∀ (s s' : CMState) (u : Unit), deleteAll env ids s = .ok u s' →
    (∀ i ∈ ids, lookupA i s.contexts = none →
      lookupA (ctxPath s.storage_dir i) s.files = none) →
    s'.storage_dir = s.storage_dir ∧
    s'.contexts = s.contexts.filter (fun p => decide (p.1 ∉ ids)) ∧
    s'.files = s.files.filter
      (fun f => decide (f.1 ∉ ids.map (ctxPath s.storage_dir))) := by
  induction ids with
  | nil =>
    intro s s' u h _
    rw [deleteAll] at h
    cases h
    refine ⟨rfl, ?_, ?_⟩ <;> simp
  | cons i0 rest ih =>
    intro s s' u h hinv
    rw [deleteAll] at h
    rcases hl : lookupA i0 s.contexts with _ | r
    · rw [delete_context_absent hl] at h
      obtain ⟨hdir, hctx, hfil⟩ := ih s s' u h (fun i hi => hinv i (List.mem_cons_of_mem _ hi))
      have hfile0 : lookupA (ctxPath s.storage_dir i0) s.files = none :=
        hinv i0 (List.mem_cons_self _ _) hl
      refine ⟨hdir, ?_, ?_⟩
      · rw [hctx]; exact filter_skip_cons rest hl
      · rw [hfil, List.map_cons]; exact filter_skip_cons _ hfile0
    · rcases hrm : env.removeFails (ctxPath s.storage_dir i0) with _ | _
      · -- removal (if any) succeeds for i0
        rw [delete_context_present hl hrm] at h
        obtain ⟨hdir, hctx, hfil⟩ := ih _ s' u h (by
          intro i hi hnone
          by_cases hii : i = i0
          · subst hii; exact lookupA_eraseA_self _ _
          · have := hinv i (List.mem_cons_of_mem _ hi)
              (by rwa [lookupA_eraseA_ne hii] at hnone)
            by_cases hp : ctxPath s.storage_dir i = ctxPath s.storage_dir i0
            · rw [hp]; exact lookupA_eraseA_self _ _
            · rwa [lookupA_eraseA_ne hp])
        refine ⟨hdir, ?_, ?_⟩
        · rw [hctx]; exact filter_erase_cons i0 rest s.contexts
        · rw [hfil, List.map_cons]; exact filter_erase_cons _ _ s.files
      · rcases hf : lookupA (ctxPath s.storage_dir i0) s.files with _ | d
        · -- i0 has no file: only the in-memory entry goes
          rw [delete_context_present_nofile hl hf] at h
          obtain ⟨hdir, hctx, hfil⟩ := ih _ s' u h (by
            intro i hi hnone
            by_cases hii : i = i0
            · subst hii; exact hf
            · exact hinv i (List.mem_cons_of_mem _ hi)
                (by rwa [lookupA_eraseA_ne hii] at hnone))
          refine ⟨hdir, ?_, ?_⟩
          · rw [hctx]; exact filter_erase_cons i0 rest s.contexts
          · rw [hfil, List.map_cons]; exact filter_skip_cons _ hf
        · -- removal raises: contradicts the ok hypothesis
          rw [delete_context_raises hl hf hrm] at h
          simp at h

theorem mem_expiredIds {now : Nat} {s : CMState} {i : String} :
    i ∈ expiredIds now s ↔ ∃ r, (i, r) ∈ s.contexts ∧ isExpired now r = true := by
  rw [expiredIds]
  constructor
  · intro h
    rcases List.mem_map.mp h with ⟨p, hp, rfl⟩
    have := List.mem_filter.mp hp
    exact ⟨p.2, by rw [Prod.mk.eta]; exact this.1, this.2⟩
  · rintro ⟨r, hm, he⟩
    exact List.mem_map.mpr ⟨(i, r), List.mem_filter.mpr ⟨hm, he⟩, rfl⟩

/-- When the sweep completes without an exception, it has removed from
memory exactly the records that were expired, and removed their files. -/
theorem cleanExpired_ok_spec {env : Env} {now : Nat} {s s' : CMState} {u : Unit}
    (h : cleanExpired env now s = .ok u s') :
    s'.storage_dir = s.storage_dir ∧
    s'.contexts = s.contexts.filter (fun p => decide (p.1 ∉ expiredIds now s)) ∧
    s'.files = s.files.filter
      (fun f => decide (f.1 ∉ (expiredIds now s).map (ctxPath s.storage_dir))) := by
  apply deleteAll_ok_spec env (expiredIds now s) s s' u h
  intro i hi hnone
  rcases mem_expiredIds.mp hi with ⟨r, hm, _⟩
  exact absurd hm (lookupA_eq_none_iff.mp hnone r)

/-! ### Well-formed states (Python dicts have unique keys) -/

/-- States reachable by the Python program: the in-memory dict and the
directory never hold two entries with the same key. -/
def WF (s : CMState) : Prop :=
  (s.contexts.map (fun p => p.1)).Nodup ∧ (s.files.map (fun p => p.1)).Nodup

instance (s : CMState) : Decidable (WF s) := by
  unfold WF; infer_instance

theorem lookupA_unique {α : Type} {j : String} {r r' : α}
    {l : List (String × α)} (hnd : (l.map (fun p => p.1)).Nodup)
    (hl : lookupA j l = some r) (hm : (j, r') ∈ l) : r' = r := by
  induction l with
  | nil => cases hm
  | cons p rest ih =>
    obtain ⟨a, b⟩ := p
    simp only [List.map_cons, List.nodup_cons] at hnd
    rw [lookupA] at hl
    by_cases ha : a = j
    · subst ha
      rw [if_pos rfl] at hl
      injection hl with hb
      rcases List.mem_cons.mp hm with h1 | h2
      · injection h1 with _ h1b
        rw [h1b, hb]
      · exact absurd (List.mem_map.mpr ⟨(a, r'), h2, rfl⟩) hnd.1
    · rw [if_neg ha] at hl
      rcases List.mem_cons.mp hm with h1 | h2
      · exact absurd (congrArg Prod.fst h1).symm ha
      · exact ih hnd.2 hl h2

theorem not_mem_expiredIds_of_lookup {now : Nat} {s : CMState} {j : String}
    {r : ContextRecord} (hnd : (s.contexts.map (fun p => p.1)).Nodup)
    (hl : lookupA j s.contexts = some r) (hexp : isExpired now r = false) :
    j ∉ expiredIds now s := by
  intro h
  rcases mem_expiredIds.mp h with ⟨r', hm, he⟩
  rw [lookupA_unique hnd hl hm] at he
  rw [hexp] at he
  cases he

theorem nodupKeys_updateA {α : Type} {k : String} {v : α}
    {l : List (String × α)} (hnd : (l.map (fun p => p.1)).Nodup) :
    ((updateA k v l).map (fun p => p.1)).Nodup := by
  unfold updateA
  by_cases hs : (lookupA k l).isSome
  · rw [if_pos hs]
    have : ((l.map (fun p => if p.1 = k then (k, v) else p)).map (fun p => p.1)) =
        l.map (fun p => p.1) := by
      rw [List.map_map]
      apply List.map_congr_left
      intro p _
      by_cases hk : p.1 = k
      · simp [hk]
      · simp [hk]
    rwa [this]
  · rw [if_neg hs]
    have hk : k ∉ l.map (fun p => p.1) := by
      intro hmem
      rcases List.mem_map.mp hmem with ⟨p, hp, he⟩
      have : lookupA k l = none := by
        cases ho : lookupA k l with
        | none => rfl
        | some w => exact absurd (by simp [ho]) hs
      exact lookupA_eq_none_iff.mp this p.2 (by rw [← he, Prod.mk.eta]; exact hp)
    rw [List.map_append]
    rw [List.nodup_append]
    exact ⟨hnd, List.nodup_singleton _, by
      intro a ha hb
      simp at hb
      subst hb
      exact hk ha⟩

theorem nodupKeys_filter {α : Type} (q : String × α → Bool)
    {l : List (String × α)} (hnd : (l.map (fun p => p.1)).Nodup) :
    ((l.filter q).map (fun p => p.1)).Nodup := by
  induction l with
  | nil => simp
  | cons p rest ih =>
    simp only [List.map_cons, List.nodup_cons] at hnd
    rw [List.filter_cons]
    by_cases hq : q p
    · rw [if_pos hq]
      simp only [List.map_cons, List.nodup_cons]
      refine ⟨?_, ih hnd.2⟩
      intro hmem
      rcases List.mem_map.mp hmem with ⟨p', hp', he⟩
      exact hnd.1 (List.mem_map.mpr ⟨p', (List.mem_filter.mp hp').1, he⟩)
    · rw [if_neg hq]
      exact ih hnd.2

/-! ### Shape of `get_context` results -/

/-- `get_context` once the sweep's outcome is known: get-or-create on
the swept state. -/
theorem get_context_of_clean {env : Env} {now : Nat} {s s₁ : CMState} {u : Unit}
    (hc : cleanExpired env now s = .ok u s₁) (context_id : String) :
    get_context env now s context_id =
      match lookupA context_id s₁.contexts with
      | none =>
        .ok (freshRecord now)
          { s₁ with contexts := updateA context_id (freshRecord now) s₁.contexts }
      | some r₀ =>
        .ok { r₀ with last_updated := some now }
          { s₁ with contexts :=
              updateA context_id { r₀ with last_updated := some now } s₁.contexts } := by
  rw [get_context, hc]

/-- Inversion: a normal return of `get_context` means the sweep
completed and the result is the get-or-create on the swept state. -/
theorem get_context_ok_inv {env : Env} {now : Nat} {s s' : CMState}
    {context_id : String} {r : ContextRecord}
    (h : get_context env now s context_id = .ok r s') :
    ∃ (u : Unit) (s₁ : CMState), cleanExpired env now s = .ok u s₁ ∧
      s' = { s₁ with contexts := updateA context_id r s₁.contexts } ∧
      ((lookupA context_id s₁.contexts = none ∧ r = freshRecord now) ∨
       (∃ r₀, lookupA context_id s₁.contexts = some r₀ ∧
         r = { r₀ with last_updated := some now })) := by
  rcases hc : cleanExpired env now s with ⟨u, s₁⟩ | ⟨e, s₁⟩
  · rw [get_context_of_clean hc] at h
    rcases hl : lookupA context_id s₁.contexts with _ | r₀ <;> rw [hl] at h
    · cases h
      exact ⟨u, s₁, rfl, rfl, Or.inl ⟨hl, rfl⟩⟩
    · cases h
      exact ⟨u, s₁, rfl, rfl, Or.inr ⟨r₀, hl, rfl⟩⟩
  · rw [get_context, hc] at h
    cases h

/-- A normal return of `get_context` also pins down the sweep's effect:
the swept state is the filtered one. -/
theorem get_context_ok_clean {env : Env} {now : Nat} {s s' : CMState}
    {context_id : String} {r : ContextRecord}
    (h : get_context env now s context_id = .ok r s') :
    ∃ (u : Unit) (s₁ : CMState), cleanExpired env now s = .ok u s₁ ∧
      s₁.storage_dir = s.storage_dir ∧
      s₁.contexts = s.contexts.filter (fun p => decide (p.1 ∉ expiredIds now s)) ∧
      s₁.files = s.files.filter
        (fun f => decide (f.1 ∉ (expiredIds now s).map (ctxPath s.storage_dir))) := by
  rcases get_context_ok_inv h with ⟨u, s₁, hc, _, _⟩
  exact ⟨u, s₁, hc, cleanExpired_ok_spec hc⟩

/-! ### Progress: without removal failures nothing raises -/

theorem deleteAll_ok_total (env : Env) (hrm : ∀ p, env.removeFails p = false)
    (ids : List String) : ∀ s : CMState, ∃ s', deleteAll env ids s = .ok () s' := by
  induction ids with
  | nil => intro s; exact ⟨s, rfl⟩
  | cons i0 rest ih =>
    intro s
    rcases hl : lookupA i0 s.contexts with _ | r
    · rcases ih s with ⟨s', hs'⟩
      exact ⟨s', by rw [deleteAll, delete_context_absent hl]; exact hs'⟩
    · rcases ih { s with
        contexts := eraseA i0 s.contexts
        files := eraseA (ctxPath s.storage_dir i0) s.files } with ⟨s', hs'⟩
      exact ⟨s', by rw [deleteAll, delete_context_present hl (hrm _)]; exact hs'⟩

theorem cleanExpired_ok_total (env : Env) (hrm : ∀ p, env.removeFails p = false)
    (now : Nat) (s : CMState) : ∃ s', cleanExpired env now s = .ok () s' :=
  deleteAll_ok_total env hrm (expiredIds now s) s

theorem get_context_ok_total (env : Env) (hrm : ∀ p, env.removeFails p = false)
    (now : Nat) (s : CMState) (context_id : String) :
    ∃ r s', get_context env now s context_id = .ok r s' := by
  rcases cleanExpired_ok_total env hrm now s with ⟨s₁, hc⟩
  rw [get_context_of_clean hc]
  rcases hl : lookupA context_id s₁.contexts with _ | r₀
  · exact ⟨_, _, rfl⟩
  · exact ⟨_, _, rfl⟩

/-! ### Lemmas on the timestamp serialization -/

theorem ofDigits_append (l : List Nat) (d : Nat) :
    ofDigits (l ++ [d]) = ofDigits l * 10 + d := by
  simp [ofDigits, List.foldl_append]

theorem ofDigits_toDigitsF : ∀ (fuel n : Nat), n ≤ fuel →
    ofDigits (toDigitsF fuel n) = n := by
  intro fuel
  induction fuel with
  | zero =>
    intro n hn
    interval_cases n
    simp [toDigitsF, ofDigits]
  | succ fuel ih =>
    intro n hn
    match n with
    | 0 => simp [toDigitsF, ofDigits]
    | m + 1 =>
      rw [toDigitsF, ofDigits_append, ih ((m + 1) / 10) (by omega)]
      omega

theorem ofDigits_toDigits (n : Nat) : ofDigits (toDigits n) = n :=
  ofDigits_toDigitsF n n le_rfl

theorem toDigitsF_lt_ten : ∀ (fuel n : Nat), ∀ d ∈ toDigitsF fuel n, d < 10 := by
  intro fuel
  induction fuel with
  | zero => intro n d hd; simp [toDigitsF] at hd
  | succ fuel ih =>
    intro n d hd
    match n with
    | 0 => simp [toDigitsF] at hd
    | m + 1 =>
      rw [toDigitsF] at hd
      rcases List.mem_append.mp hd with h1 | h2
      · exact ih ((m + 1) / 10) d h1
      · simp at h2
        subst h2
        exact Nat.mod_lt _ (by norm_num)

theorem toDigits_lt_ten (n : Nat) : ∀ d ∈ toDigits n, d < 10 :=
  toDigitsF_lt_ten n n

theorem toDigits_ne_nil {n : Nat} (h : n ≠ 0) : toDigits n ≠ [] := by
  match n with
  | 0 => exact absurd rfl h
  | m + 1 => rw [toDigits, toDigitsF]; simp

theorem digitChar_isDigit {d : Nat} (h : d < 10) :
    (Nat.digitChar d).isDigit = true := by
  interval_cases d <;> decide

theorem digitChar_val {d : Nat} (h : d < 10) :
    (Nat.digitChar d).toNat - 48 = d := by
  interval_cases d <;> decide

theorem fromisoformat_isoformat (t : Nat) :
    fromisoformat (isoformat t) = some t := by
  by_cases h0 : t = 0
  · subst h0; decide
  · rw [isoformat, if_neg h0]
    have hdata : (String.mk ((toDigits t).map Nat.digitChar)).data =
        (toDigits t).map Nat.digitChar := rfl
    rw [fromisoformat, if_pos]
    · congr 1
      rw [hdata, List.map_map]
      have : ((toDigits t).map fun c => (Char.toNat ∘ Nat.digitChar) c - 48) =
          (toDigits t).map id := by
        apply List.map_congr_left
        intro d hd
        simpa using digitChar_val (toDigits_lt_ten t d hd)
      rw [show ((fun c => c.toNat - 48) ∘ Nat.digitChar) =
            (fun c => (Char.toNat ∘ Nat.digitChar) c - 48) from rfl, this,
        List.map_id]
      exact ofDigits_toDigits t
    · constructor
      · rw [hdata]
        simpa using toDigits_ne_nil h0
      · rw [hdata]
        simp only [List.all_eq_true]
        intro c hc
        rcases List.mem_map.mp hc with ⟨d, hd, rfl⟩
        exact digitChar_isDigit (toDigits_lt_ten t d hd)

/-! ### Shape of `save_context` and `clear_context` results -/

theorem save_context_of_present {env : Env} {s : CMState} {context_id : String}
    {r : ContextRecord} (hl : lookupA context_id s.contexts = some r)
    (hw : env.writeFails (ctxPath s.storage_dir context_id) = false) :
    save_context env s context_id =
      { s with files :=
          updateA (ctxPath s.storage_dir context_id) (serializeRecord r) s.files } := by
  simp only [save_context, hl, hw]
  simp

theorem clear_context_of_present {env : Env} {now : Nat} {s : CMState}
    {context_id : String} {r : ContextRecord}
    (hl : lookupA context_id s.contexts = some r)
    (hw : env.writeFails (ctxPath s.storage_dir context_id) = false) :
    clear_context env now s context_id =
      (true,
        { s with
          contexts := updateA context_id
            { history := some [], last_updated := some now, metadata := r.metadata }
            s.contexts
          files := updateA (ctxPath s.storage_dir context_id)
            (serializeRecord
              { history := some [], last_updated := some now, metadata := r.metadata })
            s.files }) := by
  simp only [clear_context, hl]
  exact congrArg (Prod.mk true)
    (save_context_of_present (lookupA_updateA_self context_id _ s.contexts) hw)

/-! ### Sample fixtures used to instantiate the claims -/

/-- An environment in which no filesystem operation fails. -/
def envOK : Env := ⟨fun _ => false, fun _ => false⟩

/-- A sample self-serializing message (`A2AMessage`-shaped payload). -/
def msgHello : A2AMessage := ⟨.obj [("role", .str "user"), ("content", .str "hello")]⟩

/-- A second sample message. -/
def msgHiThere : A2AMessage := ⟨.obj [("role", .str "agent"), ("content", .str "hi there")]⟩

/-! ## C6 — delete contract -/

/-- C6: `delete_context` on an id present in the mapping removes it from
memory, removes its durable file if present, and returns `true`; on an
absent id it returns `false` with the state (memory and filesystem)
unchanged, so a second delete of the same id returns `false`. -/
theorem delete_contract (env : Env) (s : CMState) (context_id : String) :
    (∀ r, lookupA context_id s.contexts = some r →
      env.removeFails (ctxPath s.storage_dir context_id) = false →
      ∃ s', delete_context env s context_id = .ok true s' ∧
        lookupA context_id s'.contexts = none ∧
        lookupA (ctxPath s.storage_dir context_id) s'.files = none ∧
        delete_context env s' context_id = .ok false s') ∧
    (lookupA context_id s.contexts = none →
      delete_context env s context_id = .ok false s) := by
  constructor
  · intro r hl hrm
    refine ⟨_, delete_context_present hl hrm, ?_, ?_, ?_⟩
    · exact lookupA_eraseA_self _ _
    · exact lookupA_eraseA_self _ _
    · exact delete_context_absent (lookupA_eraseA_self _ _)
  · intro h
    exact delete_context_absent h

/-- Sample state for the delete contract: one context with its file. -/
def stateC6 : CMState :=
  { storage_dir := "contexts"
    contexts := [("c1", freshRecord 5)]
    files := [(ctxPath "contexts" "c1", serializeRecord (freshRecord 5))] }

theorem delete_contract_witness :
    (∃ s', delete_context envOK stateC6 "c1" = .ok true s' ∧
      lookupA "c1" s'.contexts = none ∧
      lookupA (ctxPath "contexts" "c1") s'.files = none ∧
      delete_context envOK s' "c1" = .ok false s') ∧
    delete_context envOK stateC6 "zzz" = .ok false stateC6 :=
  ⟨(delete_contract envOK stateC6 "c1").1 (freshRecord 5) rfl rfl,
    (delete_contract envOK stateC6 "zzz").2 rfl⟩

/-! ## C7 — clear contract -/

/-- C7: `clear_context` on a present id empties that record's history in
place, sets `last_updated` to the current time, persists the record to
its file, and returns `true`; the rest of the mapping is untouched (the
state is exactly an in-place update).  On an absent id it returns
`false` and the state is unchanged — in particular no record is
created. -/
theorem clear_contract (env : Env) (now : Nat) (s : CMState) (context_id : String) :
    (∀ r, lookupA context_id s.contexts = some r →
      env.writeFails (ctxPath s.storage_dir context_id) = false →
      ∃ s', clear_context env now s context_id = (true, s') ∧
        lookupA context_id s'.contexts =
          some { history := some [], last_updated := some now, metadata := r.metadata } ∧
        lookupA (ctxPath s.storage_dir context_id) s'.files =
          some (serializeRecord
            { history := some [], last_updated := some now, metadata := r.metadata }) ∧
        s'.contexts = updateA context_id
          { history := some [], last_updated := some now, metadata := r.metadata }
          s.contexts) ∧
    (lookupA context_id s.contexts = none →
      clear_context env now s context_id = (false, s)) := by
  constructor
  · intro r hl hw
    refine ⟨_, clear_context_of_present hl hw, ?_, ?_, rfl⟩
    · exact lookupA_updateA_self _ _ _
    · exact lookupA_updateA_self _ _ _
  · intro h
    rw [clear_context, h]

/-- Sample state for the clear contract: one context holding a message. -/
def stateC7 : CMState :=
  { storage_dir := "contexts"
    contexts := [("c1",
      { history := some [Entry.msg msgHello], last_updated := some 5,
        metadata := some (.obj []) })]
    files := [] }

theorem clear_contract_witness :
    (∃ s', clear_context envOK 9 stateC7 "c1" = (true, s') ∧
      lookupA "c1" s'.contexts =
        some { history := some [], last_updated := some 9,
               metadata := some (.obj []) } ∧
      lookupA (ctxPath "contexts" "c1") s'.files =
        some (serializeRecord
          { history := some [], last_updated := some 9,
            metadata := some (.obj []) }) ∧
      s'.contexts = updateA "c1"
        { history := some [], last_updated := some 9, metadata := some (.obj []) }
        stateC7.contexts) ∧
    clear_context envOK 9 stateC7 "zzz" = (false, stateC7) :=
  ⟨(clear_contract envOK 9 stateC7 "c1").1
      { history := some [Entry.msg msgHello], last_updated := some 5,
        metadata := some (.obj []) } rfl rfl,
    (clear_contract envOK 9 stateC7 "zzz").2 rfl⟩

/-! ## C2 — get-or-create contract -/

/-- The record a fresh id is absent from the swept state too (the sweep
only deletes). -/
theorem lookupA_after_clean_none {env : Env} {now : Nat} {s s₁ : CMState}
    {u : Unit} {context_id : String}
    (hc : cleanExpired env now s = .ok u s₁)
    (hfresh : lookupA context_id s.contexts = none) :
    lookupA context_id s₁.contexts = none := by
  obtain ⟨_, hctx, _⟩ := cleanExpired_ok_spec hc
  rw [hctx, lookupA_filter_notin]
  split <;> simp [hfresh]

/-- A present, unexpired record survives the sweep unchanged. -/
theorem lookupA_after_clean_some {env : Env} {now : Nat} {s s₁ : CMState}
    {u : Unit} {context_id : String} {rec : ContextRecord}
    (hc : cleanExpired env now s = .ok u s₁)
    (hl : lookupA context_id s.contexts = some rec)
    (hexp : isExpired now rec = false)
    (hnd : (s.contexts.map (fun p => p.1)).Nodup) :
    lookupA context_id s₁.contexts = some rec := by
  obtain ⟨_, hctx, _⟩ := cleanExpired_ok_spec hc
  rw [hctx, lookupA_filter_notin,
    if_neg (not_mem_expiredIds_of_lookup hnd hl hexp)]
  exact hl

/-- A record found in the swept state was already there before the
sweep. -/
theorem lookupA_of_clean {env : Env} {now : Nat} {s s₁ : CMState} {u : Unit}
    (hc : cleanExpired env now s = .ok u s₁) {j : String} {r : ContextRecord}
    (h1 : lookupA j s₁.contexts = some r) : lookupA j s.contexts = some r := by
  obtain ⟨_, hctx, _⟩ := cleanExpired_ok_spec hc
  rw [hctx, lookupA_filter_notin] at h1
  split at h1
  · cases h1
  · exact h1

/-- Get-or-create on a fresh id: the returned record is empty with the
current timestamp, and it is inserted. -/
theorem get_context_fresh {env : Env} {now : Nat} {s s' : CMState}
    {context_id : String} {r : ContextRecord}
    (hfresh : lookupA context_id s.contexts = none)
    (h : get_context env now s context_id = .ok r s') :
    r = { history := some [], last_updated := some now,
          metadata := some (PlainVal.obj []) } ∧
    lookupA context_id s'.contexts = some r := by
  rcases get_context_ok_inv h with ⟨u, s₁, hc, hs', hcase⟩
  have h1 : lookupA context_id s₁.contexts = none :=
    lookupA_after_clean_none hc hfresh
  rcases hcase with ⟨_, hr⟩ | ⟨r₀, hl₀, _⟩
  · subst hr
    refine ⟨rfl, ?_⟩
    rw [hs']
    exact lookupA_updateA_self _ _ _
  · rw [h1] at hl₀
    cases hl₀

/-- Get-or-create on a present, unexpired id: the record is returned
with its history and metadata intact and its timestamp touched. -/
theorem get_context_touch {env : Env} {now : Nat} {s s' : CMState}
    {context_id : String} {rec r : ContextRecord}
    (hl : lookupA context_id s.contexts = some rec)
    (hexp : isExpired now rec = false)
    (hnd : (s.contexts.map (fun p => p.1)).Nodup)
    (h : get_context env now s context_id = .ok r s') :
    r = { history := rec.history, last_updated := some now,
          metadata := rec.metadata } ∧
    lookupA context_id s'.contexts = some r := by
  rcases get_context_ok_inv h with ⟨u, s₁, hc, hs', hcase⟩
  have h1 : lookupA context_id s₁.contexts = some rec :=
    lookupA_after_clean_some hc hl hexp hnd
  rcases hcase with ⟨hnone, _⟩ | ⟨r₀, hl₀, hr⟩
  · rw [h1] at hnone
    cases hnone
  · rw [h1] at hl₀
    injection hl₀ with he
    subst he
    subst hr
    refine ⟨rfl, ?_⟩
    rw [hs']
    exact lookupA_updateA_self _ _ _

/-- C2: for an identifier absent from the store, `get_context` returns a
newly created record with empty history, empty metadata, and
`last_updated` equal to the current time, and inserts it; for a present,
unexpired record, `get_context` returns that same record (same history
and metadata, so any appended messages are still there), with
`last_updated` touched, and it stays in the mapping. -/
theorem get_or_create_contract (env : Env) (now : Nat) (s : CMState)
    (context_id : String) :
    (∀ r s', lookupA context_id s.contexts = none →
      get_context env now s context_id = .ok r s' →
      r = { history := some [], last_updated := some now,
            metadata := some (PlainVal.obj []) } ∧
      lookupA context_id s'.contexts = some r) ∧
    (∀ rec r s', lookupA context_id s.contexts = some rec →
      isExpired now rec = false →
      (s.contexts.map (fun p => p.1)).Nodup →
      get_context env now s context_id = .ok r s' →
      r = { history := rec.history, last_updated := some now,
            metadata := rec.metadata } ∧
      lookupA context_id s'.contexts = some r) := by
  constructor
  · intro r s' hfresh h
    exact get_context_fresh hfresh h
  · intro rec r s' hl hexp hnd h
    exact get_context_touch hl hexp hnd h

/-- Sample state for the get-or-create contract: one context holding two
messages appended earlier. -/
def stateC2 : CMState :=
  { storage_dir := "contexts"
    contexts := [("c1",
      { history := some [Entry.msg msgHello, Entry.msg msgHiThere],
        last_updated := some 50, metadata := some (.obj []) })]
    files := [] }

theorem get_or_create_contract_witness :
    (∃ r s', get_context envOK 60 stateC2 "new" = .ok r s' ∧
      (r = { history := some [], last_updated := some 60,
             metadata := some (PlainVal.obj []) } ∧
       lookupA "new" s'.contexts = some r)) ∧
    (∃ r s', get_context envOK 60 stateC2 "c1" = .ok r s' ∧
      (r = { history := some [Entry.msg msgHello, Entry.msg msgHiThere],
             last_updated := some 60, metadata := some (PlainVal.obj []) } ∧
       lookupA "c1" s'.contexts = some r)) := by
  constructor
  · obtain ⟨r, s', h⟩ := get_context_ok_total envOK (fun _ => rfl) 60 stateC2 "new"
    exact ⟨r, s', h,
      (get_or_create_contract envOK 60 stateC2 "new").1 r s' rfl h⟩
  · obtain ⟨r, s', h⟩ := get_context_ok_total envOK (fun _ => rfl) 60 stateC2 "c1"
    exact ⟨r, s', h,
      (get_or_create_contract envOK 60 stateC2 "c1").2
        { history := some [Entry.msg msgHello, Entry.msg msgHiThere],
          last_updated := some 50, metadata := some (.obj []) }
        r s' rfl (by decide) (by decide) h⟩

/-! ## C1 — expired records are purged by every lookup -/

/-- C1: after a `get_context` call on any identifier completes, no record
still in the in-memory mapping is expired; the returned record itself
carries the current timestamp (so it is never an expired record); and
every record that was expired at call time has its durable file gone and
— except for the queried id itself, which is re-created fresh — is gone
from the mapping. -/
theorem expired_purged (env : Env) (now : Nat) (s s' : CMState)
    (context_id : String) (r : ContextRecord)
    (h : get_context env now s context_id = .ok r s') :
    (∀ j rec, (j, rec) ∈ s'.contexts → isExpired now rec = false) ∧
    r.last_updated = some now ∧
    (∀ j rec t, (j, rec) ∈ s.contexts → rec.last_updated = some t →
      now - t > maxContextAge →
      lookupA (ctxPath s.storage_dir j) s'.files = none ∧
      (j ≠ context_id → lookupA j s'.contexts = none)) := by
  rcases get_context_ok_inv h with ⟨u, s₁, hc, hs', hcase⟩
  obtain ⟨hdir, hctx, hfil⟩ := cleanExpired_ok_spec hc
  have hrlu : r.last_updated = some now := by
    rcases hcase with ⟨_, hr⟩ | ⟨r₀, _, hr⟩ <;> subst hr <;> rfl
  refine ⟨?_, hrlu, ?_⟩
  · intro j rec hm
    rw [hs'] at hm
    rcases mem_updateA hm with he | hmem
    · have : rec = r := congrArg Prod.snd he
      subst this
      rw [isExpired, hrlu]
      simp
    · rw [hctx] at hmem
      have := List.mem_filter.mp hmem
      cases hE : isExpired now rec
      · rfl
      · exact absurd (by
          simpa using mem_expiredIds.mpr ⟨rec, this.1, hE⟩)
          (by simpa using this.2)
  · intro j rec t hm hlu hgt
    have hj : j ∈ expiredIds now s :=
      mem_expiredIds.mpr ⟨rec, hm, by rw [isExpired, hlu]; simpa using hgt⟩
    constructor
    · have hf' : s'.files = s₁.files := by rw [hs']
      rw [hf', hfil, lookupA_filter_notin,
        if_pos (List.mem_map.mpr ⟨j, hj, rfl⟩)]
    · intro hne
      rw [hs']
      have hjn : lookupA j s₁.contexts = none := by
        rw [hctx, lookupA_filter_notin, if_pos hj]
      rw [show ({ s₁ with contexts := updateA context_id r s₁.contexts } : CMState).contexts
          = updateA context_id r s₁.contexts from rfl]
      rw [lookupA_updateA_ne hne]
      exact hjn

/-- Sample state for the purge claim: a record one second past the
maximum age (its `last_updated` is `now - max_age - 1` for
`now = 86401`), with its durable file present. -/
def stateC1 : CMState :=
  { storage_dir := "contexts"
    contexts := [("old", { history := some [], last_updated := some 0,
                           metadata := some (.obj []) })]
    files := [(ctxPath "contexts" "old",
      serializeRecord { history := some [], last_updated := some 0,
                        metadata := some (.obj []) })] }

theorem expired_purged_witness :
    ∃ r s', get_context envOK 86401 stateC1 "other" = .ok r s' ∧
      lookupA (ctxPath "contexts" "old") s'.files = none ∧
      lookupA "old" s'.contexts = none := by
  obtain ⟨r, s', h⟩ := get_context_ok_total envOK (fun _ => rfl) 86401 stateC1 "other"
  have hmain := (expired_purged envOK 86401 stateC1 s' "other" r h).2.2 "old"
    { history := some [], last_updated := some 0, metadata := some (.obj []) } 0
    (by simp [stateC1]) rfl (by decide)
  exact ⟨r, s', h, hmain.1, hmain.2 (by decide)⟩

/-! ## C10 — clear and delete do not sweep; clear revives -/

/-- C10: neither `clear_context` nor `delete_context` runs the
expiration sweep: on a record whose age already exceeds the maximum,
`delete_context` still returns `true` (normal delete), and
`clear_context` still returns `true`, resets the record's
`last_updated` to the current time — reviving it, so that a subsequent
`get_context` within the age limit returns it instead of recreating it —
and persists it. -/
theorem no_sweep_on_clear_delete (env : Env) (now : Nat) (s : CMState)
    (context_id : String) (r : ContextRecord) (t : Nat)
    (hl : lookupA context_id s.contexts = some r)
    (hlu : r.last_updated = some t)
    (hexp : now - t > maxContextAge)
    (hnd : (s.contexts.map (fun p => p.1)).Nodup)
    (hrm : ∀ p, env.removeFails p = false)
    (hw : env.writeFails (ctxPath s.storage_dir context_id) = false) :
    delete_context env s context_id = .ok true
      { s with
        contexts := eraseA context_id s.contexts
        files := eraseA (ctxPath s.storage_dir context_id) s.files } ∧
    ∃ s', clear_context env now s context_id = (true, s') ∧
      lookupA context_id s'.contexts =
        some { history := some [], last_updated := some now,
               metadata := r.metadata } ∧
      lookupA (ctxPath s.storage_dir context_id) s'.files =
        some (serializeRecord
          { history := some [], last_updated := some now,
            metadata := r.metadata }) ∧
      ∀ now2 r2 s2, now2 - now ≤ maxContextAge →
        get_context env now2 s' context_id = .ok r2 s2 →
        r2 = { history := some [], last_updated := some now2,
               metadata := r.metadata } := by
  refine ⟨delete_context_present hl (hrm _), ?_⟩
  refine ⟨_, clear_context_of_present hl hw, ?_, ?_, ?_⟩
  · exact lookupA_updateA_self _ _ _
  · exact lookupA_updateA_self _ _ _
  · intro now2 r2 s2 hle h2
    have hlook : lookupA context_id
        (updateA context_id
          { history := some [], last_updated := some now, metadata := r.metadata }
          s.contexts) =
        some { history := some [], last_updated := some now, metadata := r.metadata } :=
      lookupA_updateA_self _ _ _
    have hexp2 : isExpired now2
        { history := some [], last_updated := some now, metadata := r.metadata } = false := by
      rw [isExpired]
      simpa using Nat.not_lt.mpr hle
    have hnd2 : ((updateA context_id
        { history := some [], last_updated := some now, metadata := r.metadata }
        s.contexts).map (fun p => p.1)).Nodup := nodupKeys_updateA hnd
    exact (get_context_touch hlook hexp2 hnd2 h2).1

/-- Sample state for C10: a record one second past the maximum age. -/
def stateC10 : CMState :=
  { storage_dir := "contexts"
    contexts := [("old", { history := some [Entry.msg msgHello],
                           last_updated := some 0, metadata := some (.obj []) })]
    files := [(ctxPath "contexts" "old",
      serializeRecord { history := some [Entry.msg msgHello],
                        last_updated := some 0, metadata := some (.obj []) })] }

theorem no_sweep_on_clear_delete_witness :
    delete_context envOK stateC10 "old" = .ok true
      { stateC10 with
        contexts := eraseA "old" stateC10.contexts
        files := eraseA (ctxPath "contexts" "old") stateC10.files } ∧
    ∃ s', clear_context envOK 86401 stateC10 "old" = (true, s') ∧
      lookupA "old" s'.contexts =
        some { history := some [], last_updated := some 86401,
               metadata := some (.obj []) } ∧
      lookupA (ctxPath "contexts" "old") s'.files =
        some (serializeRecord
          { history := some [], last_updated := some 86401,
            metadata := some (.obj []) }) ∧
      ∀ now2 r2 s2, now2 - 86401 ≤ maxContextAge →
        get_context envOK now2 s' "old" = .ok r2 s2 →
        r2 = { history := some [], last_updated := some now2,
               metadata := some (.obj []) } :=
  no_sweep_on_clear_delete envOK 86401 stateC10 "old"
    { history := some [Entry.msg msgHello], last_updated := some 0,
      metadata := some (.obj []) }
    0 rfl rfl (by decide) (by decide) (fun _ => rfl) rfl

/-! ## C4 — `last_updated` is monotone; reads touch -/

/-- `save_context` never changes the in-memory mapping or the
configured dir (it only writes a file). -/
theorem save_context_same_contexts (env : Env) (s : CMState) (context_id : String) :
    (save_context env s context_id).contexts = s.contexts ∧
    (save_context env s context_id).storage_dir = s.storage_dir := by
  cases hl : lookupA context_id s.contexts
  · simp [save_context, hl]
  · by_cases hw : env.writeFails (ctxPath s.storage_dir context_id) <;>
      simp [save_context, hl, hw]

/-- Inversion for `add_message`: it is get-or-create followed by an
in-place history append, a touch, and a save. -/
theorem add_message_ok_inv {env : Env} {now : Nat} {s s' : CMState}
    {context_id : String} {m : A2AMessage} {r : ContextRecord}
    (h : add_message env now s context_id m = .ok r s') :
    ∃ rg s₁, get_context env now s context_id = .ok rg s₁ ∧
      r = { history := some ((rg.history.getD []) ++ [Entry.msg m]),
            last_updated := some now, metadata := rg.metadata } ∧
      s' = save_context env
        { s₁ with contexts := updateA context_id r s₁.contexts } context_id := by
  rcases hg : get_context env now s context_id with ⟨rg, s₁⟩ | ⟨e, s₁⟩
  · rw [add_message, hg] at h
    cases h
    exact ⟨rg, s₁, rfl, rfl, rfl⟩
  · rw [add_message, hg] at h
    cases h

/-- Inversion for `get_history`: it is get-or-create with the history
projected out. -/
theorem get_history_ok_inv {env : Env} {now : Nat} {s s' : CMState}
    {context_id : String} {hist : List Entry}
    (h : get_history env now s context_id = .ok hist s') :
    ∃ r, get_context env now s context_id = .ok r s' ∧ hist = r.history.getD [] := by
  rcases hg : get_context env now s context_id with ⟨rg, s₁⟩ | ⟨e, s₁⟩
  · rw [get_history, hg] at h
    cases h
    exact ⟨rg, rfl, rfl⟩
  · rw [get_history, hg] at h
    cases h

/-- One operation step keeps every surviving record's `last_updated`
non-decreasing, given that the wall clock `now` is itself past every
stored timestamp. -/
def touchesMono (s s' : CMState) (now : Nat) : Prop :=
  ∀ j r t, lookupA j s.contexts = some r → r.last_updated = some t → t ≤ now →
    ∀ r', lookupA j s'.contexts = some r' →
      ∃ t', r'.last_updated = some t' ∧ t ≤ t'

theorem touchesMono_of_get {env : Env} {now : Nat} {s s' : CMState}
    {context_id : String} {r : ContextRecord}
    (h : get_context env now s context_id = .ok r s') : touchesMono s s' now := by
  intro j r0 t hlj hlu ht r' hlj'
  rcases get_context_ok_inv h with ⟨u, s₁, hc, hs', hcase⟩
  have hrlu : r.last_updated = some now := by
    rcases hcase with ⟨_, hr⟩ | ⟨r₀, _, hr⟩ <;> subst hr <;> rfl
  by_cases hj : j = context_id
  · subst hj
    rw [hs'] at hlj'
    rw [show ({ s₁ with contexts := updateA j r s₁.contexts } : CMState).contexts
        = updateA j r s₁.contexts from rfl, lookupA_updateA_self] at hlj'
    injection hlj' with he
    subst he
    exact ⟨now, hrlu, ht⟩
  · rw [hs'] at hlj'
    rw [show ({ s₁ with contexts := updateA context_id r s₁.contexts } : CMState).contexts
        = updateA context_id r s₁.contexts from rfl, lookupA_updateA_ne hj] at hlj'
    have := lookupA_of_clean hc hlj'
    rw [hlj] at this
    injection this with he
    subst he
    exact ⟨t, hlu, le_rfl⟩

/-- C4: every public operation leaves each record's `last_updated`
non-decreasing (the wall clock is assumed monotone: the timestamps
already stored do not lie in the future of the call time), and two
consecutive `get_context` calls on the same id at increasing times
strictly increase the returned record's `last_updated` — a read access
counts as a touch. -/
theorem last_updated_monotone :
    (∀ (env : Env) (now : Nat) (s s' : CMState) (context_id : String)
      (r : ContextRecord), get_context env now s context_id = .ok r s' →
      touchesMono s s' now) ∧
    (∀ (env : Env) (now : Nat) (s s' : CMState) (context_id : String)
      (m : A2AMessage) (r : ContextRecord),
      add_message env now s context_id m = .ok r s' → touchesMono s s' now) ∧
    (∀ (env : Env) (now : Nat) (s s' : CMState) (context_id : String)
      (hist : List Entry), get_history env now s context_id = .ok hist s' →
      touchesMono s s' now) ∧
    (∀ (env : Env) (now : Nat) (s s' : CMState) (context_id : String) (b : Bool),
      clear_context env now s context_id = (b, s') → touchesMono s s' now) ∧
    (∀ (env : Env) (now : Nat) (s s' : CMState) (context_id : String) (b : Bool),
      delete_context env s context_id = .ok b s' → touchesMono s s' now) ∧
    (∀ (env : Env) (now₁ now₂ : Nat) (s s₁ s₂ : CMState) (context_id : String)
      (r₁ r₂ : ContextRecord),
      get_context env now₁ s context_id = .ok r₁ s₁ →
      get_context env now₂ s₁ context_id = .ok r₂ s₂ →
      now₁ < now₂ →
      r₁.last_updated = some now₁ ∧ r₂.last_updated = some now₂) := by
  refine ⟨fun env now s s' cid r h => touchesMono_of_get h, ?_, ?_, ?_, ?_, ?_⟩
  · -- add_message
    intro env now s s' cid m r h
    rcases add_message_ok_inv h with ⟨rg, s₁, hg, hr, hs'⟩
    intro j r0 t hlj hlu ht r' hlj'
    rw [hs', (save_context_same_contexts env _ cid).1] at hlj'
    by_cases hj : j = cid
    · subst hj
      rw [show ({ s₁ with contexts := updateA j r s₁.contexts } : CMState).contexts
          = updateA j r s₁.contexts from rfl, lookupA_updateA_self] at hlj'
      injection hlj' with he
      subst he
      exact ⟨now, by rw [hr], ht⟩
    · rw [show ({ s₁ with contexts := updateA cid r s₁.contexts } : CMState).contexts
          = updateA cid r s₁.contexts from rfl, lookupA_updateA_ne hj] at hlj'
      exact touchesMono_of_get hg j r0 t hlj hlu ht r' hlj'
  · -- get_history
    intro env now s s' cid hist h
    rcases get_history_ok_inv h with ⟨r, hg, _⟩
    exact touchesMono_of_get hg
  · -- clear_context
    intro env now s s' cid b h
    intro j r0 t hlj hlu ht r' hlj'
    rcases hl : lookupA cid s.contexts with _ | rc
    · rw [clear_context, hl] at h
      cases h
      rw [hlj] at hlj'
      injection hlj' with he
      subst he
      exact ⟨t, hlu, le_rfl⟩
    · simp only [clear_context, hl] at h
      cases h
      rw [(save_context_same_contexts env _ cid).1] at hlj'
      by_cases hj : j = cid
      · subst hj
        rw [lookupA_updateA_self] at hlj'
        injection hlj' with he
        subst he
        exact ⟨now, rfl, ht⟩
      · rw [lookupA_updateA_ne hj] at hlj'
        rw [hlj] at hlj'
        injection hlj' with he
        subst he
        exact ⟨t, hlu, le_rfl⟩
  · -- delete_context
    intro env now s s' cid b h
    intro j r0 t hlj hlu ht r' hlj'
    rcases hl : lookupA cid s.contexts with _ | rc
    · rw [delete_context_absent hl] at h
      cases h
      rw [hlj] at hlj'
      injection hlj' with he
      subst he
      exact ⟨t, hlu, le_rfl⟩
    · have hctx' : s'.contexts = eraseA cid s.contexts := by
        rcases hrm : env.removeFails (ctxPath s.storage_dir cid) with _ | _
        · rw [delete_context_present hl hrm] at h
          cases h
          rfl
        · rcases hf : lookupA (ctxPath s.storage_dir cid) s.files with _ | d
          · rw [delete_context_present_nofile hl hf] at h
            cases h
            rfl
          · rw [delete_context_raises hl hf hrm] at h
            cases h
      by_cases hj : j = cid
      · subst hj
        rw [hctx', lookupA_eraseA_self] at hlj'
        cases hlj'
      · rw [hctx', lookupA_eraseA_ne hj] at hlj'
        rw [hlj] at hlj'
        injection hlj' with he
        subst he
        exact ⟨t, hlu, le_rfl⟩
  · -- strict touch-on-read
    intro env now₁ now₂ s s₁ s₂ cid r₁ r₂ h1 h2 _
    constructor
    · rcases get_context_ok_inv h1 with ⟨u, sm, _, _, hcase⟩
      rcases hcase with ⟨_, hr⟩ | ⟨r₀, _, hr⟩ <;> subst hr <;> rfl
    · rcases get_context_ok_inv h2 with ⟨u, sm, _, _, hcase⟩
      rcases hcase with ⟨_, hr⟩ | ⟨r₀, _, hr⟩ <;> subst hr <;> rfl

/-- Sample state for the monotonicity claim. -/
def stateC4 : CMState :=
  { storage_dir := "contexts"
    contexts := [("c1", { history := some [], last_updated := some 10,
                          metadata := some (.obj []) })]
    files := [] }

theorem last_updated_monotone_witness :
    (∃ r₁ s₁ r₂ s₂,
      get_context envOK 20 stateC4 "c1" = .ok r₁ s₁ ∧
      get_context envOK 30 s₁ "c1" = .ok r₂ s₂ ∧
      r₁.last_updated = some 20 ∧ r₂.last_updated = some 30) ∧
    (∃ b s', clear_context envOK 20 stateC4 "c1" = (b, s') ∧
      ∀ r', lookupA "c1" s'.contexts = some r' →
        ∃ t', r'.last_updated = some t' ∧ 10 ≤ t') := by
  constructor
  · obtain ⟨r₁, s₁, h1⟩ := get_context_ok_total envOK (fun _ => rfl) 20 stateC4 "c1"
    obtain ⟨r₂, s₂, h2⟩ := get_context_ok_total envOK (fun _ => rfl) 30 s₁ "c1"
    obtain ⟨hr₁, hr₂⟩ := last_updated_monotone.2.2.2.2.2 envOK 20 30 stateC4 s₁ s₂
      "c1" r₁ r₂ h1 h2 (by decide)
    exact ⟨r₁, s₁, r₂, s₂, h1, h2, hr₁, hr₂⟩
  · rcases hcl : clear_context envOK 20 stateC4 "c1" with ⟨b, s'⟩
    refine ⟨b, s', rfl, ?_⟩
    intro r' hr'
    exact last_updated_monotone.2.2.2.1 envOK 20 stateC4 s' "c1" b hcl "c1"
      { history := some [], last_updated := some 10, metadata := some (.obj []) }
      10 rfl rfl (by decide) r' hr'

/-! ## C3 — appends preserve arrival order -/

theorem WF_clean {env : Env} {now : Nat} {s s₁ : CMState} {u : Unit}
    (hc : cleanExpired env now s = .ok u s₁) (h : WF s) : WF s₁ := by
  obtain ⟨_, hctx, hfil⟩ := cleanExpired_ok_spec hc
  constructor
  · rw [hctx]; exact nodupKeys_filter _ h.1
  · rw [hfil]; exact nodupKeys_filter _ h.2

theorem WF_save {env : Env} {s : CMState} {context_id : String} (h : WF s) :
    WF (save_context env s context_id) := by
  rcases hl : lookupA context_id s.contexts with _ | r
  · simp only [save_context, hl]
    exact h
  · rcases hw : env.writeFails (ctxPath s.storage_dir context_id) with _ | _
    · rw [save_context_of_present hl hw]
      exact ⟨h.1, nodupKeys_updateA h.2⟩
    · simp only [save_context, hl, hw, if_true]
      exact h

theorem WF_get {env : Env} {now : Nat} {s s' : CMState} {context_id : String}
    {r : ContextRecord} (h : get_context env now s context_id = .ok r s')
    (hWF : WF s) : WF s' := by
  rcases get_context_ok_inv h with ⟨u, s₁, hc, hs', _⟩
  have h₁ := WF_clean hc hWF
  rw [hs']
  exact ⟨nodupKeys_updateA h₁.1, h₁.2⟩

theorem get_context_storage_dir {env : Env} {now : Nat} {s s' : CMState}
    {context_id : String} {r : ContextRecord}
    (h : get_context env now s context_id = .ok r s') :
    s'.storage_dir = s.storage_dir := by
  rcases get_context_ok_inv h with ⟨u, s₁, hc, hs', _⟩
  rw [hs']
  exact (cleanExpired_ok_spec hc).1

theorem add_message_ok_total (env : Env) (hrm : ∀ p, env.removeFails p = false)
    (now : Nat) (s : CMState) (context_id : String) (m : A2AMessage) :
    ∃ r s', add_message env now s context_id m = .ok r s' := by
  obtain ⟨rg, s₁, hg⟩ := get_context_ok_total env hrm now s context_id
  exact ⟨_, _, by rw [add_message, hg]⟩

/-- Appending to a present, unexpired record: the message lands at the
end of the existing history, the timestamp is touched, and the updated
record is what the store now holds. -/
theorem add_message_on_present {env : Env} (now : Nat) {s : CMState}
    {context_id : String} {rec : ContextRecord} {hist : List Entry}
    (m : A2AMessage) (hWF : WF s)
    (hl : lookupA context_id s.contexts = some rec)
    (hh : rec.history = some hist) (hexp : isExpired now rec = false)
    (hrm : ∀ p, env.removeFails p = false) :
    ∃ s', add_message env now s context_id m = .ok
        { history := some (hist ++ [Entry.msg m]), last_updated := some now,
          metadata := rec.metadata } s' ∧
      WF s' ∧ s'.storage_dir = s.storage_dir ∧
      lookupA context_id s'.contexts = some
        { history := some (hist ++ [Entry.msg m]), last_updated := some now,
          metadata := rec.metadata } := by
  obtain ⟨r0, s', h⟩ := add_message_ok_total env hrm now s context_id m
  rcases add_message_ok_inv h with ⟨rg, s₁, hg, hr, hs'⟩
  obtain ⟨hrg, hlg⟩ := get_context_touch hl hexp hWF.1 hg
  have hr0 : r0 = ⟨some (hist ++ [Entry.msg m]), some now, rec.metadata⟩ := by
    rw [hr, hrg]
    simp [hh]
  subst hr0
  have hWF₁ := WF_get hg hWF
  have hctx' : s'.contexts = updateA context_id
      { history := some (hist ++ [Entry.msg m]), last_updated := some now,
        metadata := rec.metadata } s₁.contexts := by
    rw [hs', (save_context_same_contexts env _ context_id).1]
  refine ⟨s', h, ?_, ?_, ?_⟩
  · rw [hs']
    exact WF_save ⟨nodupKeys_updateA hWF₁.1, hWF₁.2⟩
  · rw [hs', (save_context_same_contexts env _ context_id).2]
    show s₁.storage_dir = s.storage_dir
    exact get_context_storage_dir hg
  · rw [hctx']
    exact lookupA_updateA_self _ _ _

/-- Appending under a fresh identifier: the record is created and holds
exactly the one message. -/
theorem add_message_on_fresh {env : Env} (now : Nat) {s : CMState}
    {context_id : String} (m : A2AMessage) (hWF : WF s)
    (hl : lookupA context_id s.contexts = none)
    (hrm : ∀ p, env.removeFails p = false) :
    ∃ s', add_message env now s context_id m = .ok
        { history := some [Entry.msg m], last_updated := some now,
          metadata := some (PlainVal.obj []) } s' ∧
      WF s' ∧ s'.storage_dir = s.storage_dir ∧
      lookupA context_id s'.contexts = some
        { history := some [Entry.msg m], last_updated := some now,
          metadata := some (PlainVal.obj []) } := by
  obtain ⟨r0, s', h⟩ := add_message_ok_total env hrm now s context_id m
  rcases add_message_ok_inv h with ⟨rg, s₁, hg, hr, hs'⟩
  obtain ⟨hrg, hlg⟩ := get_context_fresh hl hg
  have hr0 : r0 = ⟨some [Entry.msg m], some now, some (PlainVal.obj [])⟩ := by
    rw [hr, hrg]
    rfl
  subst hr0
  have hWF₁ := WF_get hg hWF
  have hctx' : s'.contexts = updateA context_id
      { history := some [Entry.msg m], last_updated := some now,
        metadata := some (PlainVal.obj []) } s₁.contexts := by
    rw [hs', (save_context_same_contexts env _ context_id).1]
  refine ⟨s', h, ?_, ?_, ?_⟩
  · rw [hs']
    exact WF_save ⟨nodupKeys_updateA hWF₁.1, hWF₁.2⟩
  · rw [hs', (save_context_same_contexts env _ context_id).2]
    show s₁.storage_dir = s.storage_dir
    exact get_context_storage_dir hg
  · rw [hctx']
    exact lookupA_updateA_self _ _ _

/-- N sequential `add_message` calls on one identifier, each with its
own call time; an exception aborts the sequence. -/
def addMessages (env : Env) (context_id : String) :
    List (Nat × A2AMessage) → CMState → PyResult Unit
  | [], s => .ok () s
  | (t, m) :: rest, s =>
    match add_message env t s context_id m with
    | .ok _ s' => addMessages env context_id rest s'
    | .err e s' => .err e s'

theorem chain_append_singleton (R : Nat → Nat → Prop) :
    ∀ (a : Nat) (l : List Nat) (b : Nat),
    List.Chain R a (l ++ [b]) ↔ List.Chain R a l ∧ R (l.getLastD a) b := by
  intro a l
  induction l generalizing a with
  | nil => intro b; simp [List.chain_cons]
  | cons c l' ih =>
    intro b
    rw [List.cons_append, List.chain_cons, List.chain_cons, ih c b,
      List.getLastD_cons]
    tauto

/-- Running a list of appends over a live record accumulates exactly the
appended messages, in order, behind the existing history, provided no
two consecutive call times are more than the maximum age apart. -/
theorem addMessages_run (env : Env) (hrm : ∀ p, env.removeFails p = false)
    (context_id : String) :
    ∀ (calls : List (Nat × A2AMessage)) (s : CMState) (rec : ContextRecord)
      (tprev : Nat) (hist : List Entry),
      WF s →
      lookupA context_id s.contexts = some rec →
      rec.last_updated = some tprev →
      rec.history = some hist →
      List.Chain (fun a b => b - a ≤ maxContextAge) tprev
        (calls.map (fun p => p.1)) →
      ∃ s', addMessages env context_id calls s = .ok () s' ∧ WF s' ∧
        s'.storage_dir = s.storage_dir ∧
        lookupA context_id s'.contexts = some
          ⟨some (hist ++ calls.map (fun p => Entry.msg p.2)),
           some ((calls.map (fun p => p.1)).getLastD tprev),
           rec.metadata⟩ := by
  intro calls
  induction calls with
  | nil =>
    intro s rec tprev hist hWF hl hlu hh _
    refine ⟨s, rfl, hWF, rfl, ?_⟩
    rw [hl]
    obtain ⟨rh, rl, rm⟩ := rec
    simp only at hlu hh
    subst hlu
    subst hh
    simp
  | cons c rest ih =>
    obtain ⟨t1, m⟩ := c
    intro s rec tprev hist hWF hl hlu hh hchain
    rw [List.map_cons, List.chain_cons] at hchain
    have hexp : isExpired t1 rec = false := by
      rw [isExpired, hlu]
      simpa using Nat.not_lt.mpr hchain.1
    obtain ⟨s₂, hadd, hWF₂, hdir₂, hl₂⟩ :=
      add_message_on_present t1 m hWF hl hh hexp hrm
    obtain ⟨s', hrun, hWF', hdir', hl'⟩ :=
      ih s₂ ⟨some (hist ++ [Entry.msg m]), some t1, rec.metadata⟩ t1
        (hist ++ [Entry.msg m]) hWF₂ hl₂ rfl rfl hchain.2
    refine ⟨s', ?_, hWF', by rw [hdir', hdir₂], ?_⟩
    · rw [addMessages, hadd]
      exact hrun
    · rw [hl']
      have h2 : (((t1, m) :: rest).map (fun p => p.1)).getLastD tprev
          = (rest.map (fun p => p.1)).getLastD t1 := by
        rw [List.map_cons]
        exact List.getLastD_cons tprev t1 _
      rw [h2]
      simp

/-- C3: after N sequential `add_message` calls on a previously unseen
identifier (no expiry between consecutive calls or before the final
read), `get_history` returns exactly those N message entries, in call
order, and nothing else. -/
theorem append_order (env : Env) (s : CMState) (context_id : String)
    (calls : List (Nat × A2AMessage)) (tf : Nat)
    (hrm : ∀ p, env.removeFails p = false)
    (hWF : WF s)
    (hfresh : lookupA context_id s.contexts = none)
    (hchain : List.Chain' (fun a b => b - a ≤ maxContextAge)
      (calls.map (fun p => p.1) ++ [tf])) :
    ∃ s' s'', addMessages env context_id calls s = .ok () s' ∧
      get_history env tf s' context_id =
        .ok (calls.map (fun p => Entry.msg p.2)) s'' := by
  rcases calls with _ | ⟨⟨t1, m⟩, rest⟩
  · refine ⟨s, ?_⟩
    obtain ⟨r, s'', hg⟩ := get_context_ok_total env hrm tf s context_id
    obtain ⟨hr, _⟩ := get_context_fresh hfresh hg
    refine ⟨s'', rfl, ?_⟩
    rw [get_history, hg, hr]
    rfl
  · rw [List.map_cons, List.cons_append] at hchain
    have hchain1 : List.Chain (fun a b => b - a ≤ maxContextAge) t1
        (rest.map (fun p => p.1) ++ [tf]) := hchain
    rw [chain_append_singleton] at hchain1
    obtain ⟨s₂, hadd, hWF₂, hdir₂, hl₂⟩ :=
      add_message_on_fresh t1 m hWF hfresh hrm
    obtain ⟨s', hrun, hWF', hdir', hl'⟩ :=
      addMessages_run env hrm context_id rest s₂
        ⟨some [Entry.msg m], some t1, some (PlainVal.obj [])⟩ t1 [Entry.msg m]
        hWF₂ hl₂ rfl rfl hchain1.1
    have hexpf : isExpired tf
        (⟨some ([Entry.msg m] ++ rest.map (fun p => Entry.msg p.2)),
          some ((rest.map (fun p => p.1)).getLastD t1),
          some (PlainVal.obj [])⟩ : ContextRecord) = false := by
      rw [isExpired]
      simpa using Nat.not_lt.mpr hchain1.2
    obtain ⟨rg, s'', hg⟩ := get_context_ok_total env hrm tf s' context_id
    obtain ⟨hrg, _⟩ := get_context_touch hl' hexpf hWF'.1 hg
    refine ⟨s', s'', ?_, ?_⟩
    · rw [addMessages, hadd]
      exact hrun
    · rw [get_history, hg, hrg]
      rfl

/-- Sample fixture for C3: two appends then a read, matching the spec's
concrete scenario (`"hello"` then `"hi there"`). -/
def stateC3 : CMState := { storage_dir := "contexts", contexts := [], files := [] }

theorem append_order_witness :
    ∃ s' s'', addMessages envOK "c1" [(1, msgHello), (2, msgHiThere)] stateC3 =
        .ok () s' ∧
      get_history envOK 3 s' "c1" =
        .ok [Entry.msg msgHello, Entry.msg msgHiThere] s'' :=
  append_order envOK stateC3 "c1" [(1, msgHello), (2, msgHiThere)] 3
    (fun _ => rfl) (by decide) rfl
    (by norm_num [List.chain'_cons, List.chain'_singleton, maxContextAge])

/-! ## C5 — persistence round trip -/

/-- Parsing back what `save_context` serialized: the timestamp round
trips to the same instant; every history entry comes back as plain data
(`Entry.plain` of its serialized form), never as the original
self-serializing object. -/
theorem parseDoc_serializeRecord (r : ContextRecord) :
    parseDoc (serializeRecord r) =
      some ⟨(r.history).map (fun l => l.map (fun e => Entry.plain (serializeEntry e))),
            r.last_updated, r.metadata⟩ := by
  rcases hlu : r.last_updated with _ | t
  · simp [parseDoc, serializeRecord, hlu, Option.map_map, List.map_map]
    rfl
  · simp [parseDoc, serializeRecord, hlu, fromisoformat_isoformat,
      Option.map_map, List.map_map]
    rfl

/-- The startup fold, observed through one id: the last file
contributing that id wins. -/
theorem lookupA_loadContexts_foldl (dir context_id : String) :
    ∀ (files : List (String × StoredDoc)) (acc : List (String × ContextRecord)),
    lookupA context_id
      (files.foldl (fun acc pd =>
        match loadOne dir pd with
        | none => acc
        | some (cid, r) => updateA cid r acc) acc) =
    files.foldl (fun o pd =>
      match loadOne dir pd with
      | some (cid, r) => if cid = context_id then some r else o
      | none => o) (lookupA context_id acc) := by
  intro files
  induction files with
  | nil => intro acc; rfl
  | cons pd rest ih =>
    intro acc
    rw [List.foldl_cons, List.foldl_cons]
    rcases hone : loadOne dir pd with _ | ⟨cid, r⟩
    · rw [ih]
    · rw [ih]
      congr 1
      by_cases hc : cid = context_id
      · subst hc
        rw [lookupA_updateA_self]
        exact (if_pos rfl).symm
      · rw [lookupA_updateA_ne (fun e => hc e.symm)]
        exact (if_neg hc).symm

/-- Once the fold has found the record and no later file contributes a
different record for the id, the result stays. -/
theorem loadContexts_foldl_keep (dir context_id : String) (r' : ContextRecord) :
    ∀ (files : List (String × StoredDoc)),
    (∀ pd ∈ files, ∀ rr, loadOne dir pd = some (context_id, rr) → rr = r') →
    files.foldl (fun o pd =>
      match loadOne dir pd with
      | some (cid, r) => if cid = context_id then some r else o
      | none => o) (some r') = some r' := by
  intro files
  induction files with
  | nil => intro _; rfl
  | cons pd rest ih =>
    intro huniq
    rw [List.foldl_cons]
    rcases hone : loadOne dir pd with _ | ⟨cid, r⟩
    · exact ih (fun q hq => huniq q (List.mem_cons_of_mem _ hq))
    · show List.foldl
        (fun o pd =>
          match loadOne dir pd with
          | some (cid, r) => if cid = context_id then some r else o
          | none => o)
        (if cid = context_id then some r else some r') rest = some r'
      by_cases hc : cid = context_id
      · subst hc
        have hrr : r = r' := huniq pd (List.mem_cons_self _ _) r hone
        subst hrr
        rw [if_pos rfl]
        exact ih (fun q hq => huniq q (List.mem_cons_of_mem _ hq))
      · rw [if_neg hc]
        exact ih (fun q hq => huniq q (List.mem_cons_of_mem _ hq))

/-- If exactly one record value is ever contributed for an id and some
file does contribute it, the fold produces it. -/
theorem loadContexts_foldl_hit (dir context_id : String) (r' : ContextRecord) :
    ∀ (files : List (String × StoredDoc)) (o : Option ContextRecord),
    (∀ pd ∈ files, ∀ rr, loadOne dir pd = some (context_id, rr) → rr = r') →
    (∃ pd ∈ files, loadOne dir pd = some (context_id, r')) →
    files.foldl (fun o pd =>
      match loadOne dir pd with
      | some (cid, r) => if cid = context_id then some r else o
      | none => o) o = some r' := by
  intro files
  induction files with
  | nil =>
    intro o _ hhit
    rcases hhit with ⟨pd, hpd, _⟩
    cases hpd
  | cons pd rest ih =>
    intro o huniq hhit
    rw [List.foldl_cons]
    rcases hone : loadOne dir pd with _ | ⟨cid, r⟩
    · refine ih o (fun q hq => huniq q (List.mem_cons_of_mem _ hq)) ?_
      rcases hhit with ⟨q, hq, hce⟩
      rcases List.mem_cons.mp hq with h1 | h2
      · subst h1; rw [hone] at hce; cases hce
      · exact ⟨q, h2, hce⟩
    · show List.foldl
        (fun o pd =>
          match loadOne dir pd with
          | some (cid, r) => if cid = context_id then some r else o
          | none => o)
        (if cid = context_id then some r else o) rest = some r'
      by_cases hc : cid = context_id
      · subst hc
        have hrr : r = r' := huniq pd (List.mem_cons_self _ _) r hone
        subst hrr
        rw [if_pos rfl]
        exact loadContexts_foldl_keep dir cid r rest
          (fun q hq => huniq q (List.mem_cons_of_mem _ hq))
      · rw [if_neg hc]
        refine ih o (fun q hq => huniq q (List.mem_cons_of_mem _ hq)) ?_
        rcases hhit with ⟨q, hq, hce⟩
        rcases List.mem_cons.mp hq with h1 | h2
        · subst h1
          rw [hone] at hce
          injection hce with hpair
          exact absurd (congrArg Prod.fst hpair) hc
        · exact ⟨q, h2, hce⟩

/-- The character-level layout of a context's durable path. -/
theorem ctxPath_data (dir context_id : String) :
    (ctxPath dir context_id).data =
      (dir.data ++ ['/']) ++ (context_id.data ++ ['.', 'j', 's', 'o', 'n']) := by
  show (dir.data ++ "/".data) ++ (context_id.data ++ ".json".data) = _
  simp

/-- The scan accepts exactly the file this id saves to. -/
theorem loadOne_ctxPath (dir context_id : String) (d : StoredDoc)
    (r : ContextRecord)
    (hid : context_id.data.contains '/' = false)
    (hparse : parseDoc d = some r) :
    loadOne dir (ctxPath dir context_id, d) = some (context_id, r) := by
  have hdata := ctxPath_data dir context_id
  have hlen : (dir.data ++ ['/']).length = dir.data.length + 1 := by simp
  have htake : (ctxPath dir context_id).data.take (dir.data.length + 1) =
      dir.data ++ ['/'] := by
    rw [hdata, ← hlen]
    exact List.take_left _ _
  have hdrop : (ctxPath dir context_id).data.drop (dir.data.length + 1) =
      context_id.data ++ ['.', 'j', 's', 'o', 'n'] := by
    rw [hdata, ← hlen]
    exact List.drop_left _ _
  have hcont : (context_id.data ++ ['.', 'j', 's', 'o', 'n']).contains '/' = false := by
    have h1 : ¬ '/' ∈ context_id.data := by simpa using hid
    simp [List.mem_append]
    exact h1
  have hname : nameInDir dir (ctxPath dir context_id) =
      some ⟨context_id.data ++ ['.', 'j', 's', 'o', 'n']⟩ := by
    rw [nameInDir, if_pos htake]
    simp only [hdrop]
    rw [if_neg (by rw [hcont]; exact Bool.false_ne_true)]
  have hcid : ctxIdOfName ⟨context_id.data ++ ['.', 'j', 's', 'o', 'n']⟩ =
      some context_id := by
    rw [ctxIdOfName]
    have hL : (context_id.data ++ ['.', 'j', 's', 'o', 'n']).length
        = context_id.data.length + 5 := by simp
    rw [if_pos ?hcnd]
    case hcnd =>
      constructor
      · show 5 ≤ (String.mk (context_id.data ++ ['.', 'j', 's', 'o', 'n'])).data.length
        rw [show (String.mk (context_id.data ++ ['.', 'j', 's', 'o', 'n'])).data
            = context_id.data ++ ['.', 'j', 's', 'o', 'n'] from rfl, hL]
        omega
      · show (context_id.data ++ ['.', 'j', 's', 'o', 'n']).drop
            ((context_id.data ++ ['.', 'j', 's', 'o', 'n']).length - 5) = _
        rw [hL, Nat.add_sub_cancel]
        exact List.drop_left _ _
    · congr 1
      show String.mk ((context_id.data ++ ['.', 'j', 's', 'o', 'n']).take
          ((context_id.data ++ ['.', 'j', 's', 'o', 'n']).length - 5)) = context_id
      rw [hL, Nat.add_sub_cancel, List.take_left]
  rw [loadOne]
  simp only [hname, hcid, hparse]

/-- Conversely, a file the scan stores under this id is at exactly this
id's durable path. -/
theorem loadOne_eq_id {dir : String} {pd : String × StoredDoc}
    {context_id : String} {r : ContextRecord}
    (h : loadOne dir pd = some (context_id, r)) :
    pd.1 = ctxPath dir context_id ∧ parseDoc pd.2 = some r := by
  rw [loadOne] at h
  rcases hname : nameInDir dir pd.1 with _ | n <;> rw [hname] at h
  · cases h
  · replace h : (match ctxIdOfName n with
      | none => none
      | some cid =>
        match parseDoc pd.2 with
        | none => none
        | some r => some (cid, r)) = some (context_id, r) := h
    rcases hcid : ctxIdOfName n with _ | cid <;> rw [hcid] at h
    · cases h
    · replace h : (match parseDoc pd.2 with
        | none => none
        | some rr => some (cid, rr)) = some (context_id, r) := h
      rcases hparse : parseDoc pd.2 with _ | rr <;> rw [hparse] at h
      · cases h
      · replace h : some (cid, rr) = some (context_id, r) := h
        injection h with hpair
        have hc : cid = context_id := congrArg Prod.fst hpair
        have hr : rr = r := congrArg Prod.snd hpair
        subst hc
        subst hr
        rw [nameInDir] at hname
        by_cases htake : pd.1.data.take (dir.data.length + 1) = dir.data ++ ['/']
        · rw [if_pos htake] at hname
          by_cases hcont : (String.mk (pd.1.data.drop (dir.data.length + 1))).data.contains '/'
          · rw [if_pos hcont] at hname; cases hname
          · rw [if_neg hcont] at hname
            injection hname with hn
            rw [ctxIdOfName] at hcid
            by_cases hcnd : 5 ≤ n.data.length ∧
                n.data.drop (n.data.length - 5) = ['.', 'j', 's', 'o', 'n']
            · rw [if_pos hcnd] at hcid
              injection hcid with hcide
              have hcdata : cid.data = n.data.take (n.data.length - 5) := by
                rw [← hcide]
              have hndata : n.data = cid.data ++ ['.', 'j', 's', 'o', 'n'] := by
                conv_lhs => rw [← List.take_append_drop (n.data.length - 5) n.data]
                rw [hcnd.2, hcdata]
              refine ⟨String.ext ?_, rfl⟩
              rw [ctxPath_data]
              conv_lhs => rw [← List.take_append_drop (dir.data.length + 1) pd.1.data]
              rw [htake]
              have hdropn : pd.1.data.drop (dir.data.length + 1) = n.data := by
                rw [← hn]
              rw [hdropn, hndata]
            · rw [if_neg hcnd] at hcid; cases hcid
        · rw [if_neg htake] at hname; cases hname

/-- C5 (amended): saving a record and reloading the store restores
`last_updated` as the same comparable instant, and restores the history
with every entry in its serialized plain form — plain entries round-trip
unchanged, while a self-serializing entry comes back as its
externalized plain representation, not as the original object. -/
theorem save_reload_roundtrip (env : Env) (s : CMState) (context_id : String)
    (r : ContextRecord)
    (hndf : (s.files.map (fun p => p.1)).Nodup)
    (hl : lookupA context_id s.contexts = some r)
    (hid : context_id.data.contains '/' = false)
    (hw : env.writeFails (ctxPath s.storage_dir context_id) = false) :
    lookupA context_id
      (initState s.storage_dir (save_context env s context_id).files).contexts =
      some ⟨(r.history).map (fun l => l.map (fun e => Entry.plain (serializeEntry e))),
            r.last_updated, r.metadata⟩ := by
  rw [save_context_of_present hl hw]
  set p := ctxPath s.storage_dir context_id with hp
  set d := serializeRecord r with hd
  set files' := updateA p d s.files with hfiles'
  have hnd' : (files'.map (fun q => q.1)).Nodup := nodupKeys_updateA hndf
  have hlookp : lookupA p files' = some d := lookupA_updateA_self _ _ _
  have huniq : ∀ pd ∈ files', ∀ rr,
      loadOne s.storage_dir pd = some (context_id, rr) →
      rr = ⟨(r.history).map (fun l => l.map (fun e => Entry.plain (serializeEntry e))),
            r.last_updated, r.metadata⟩ := by
    intro pd hpd rr hone
    obtain ⟨hpath, hparse⟩ := loadOne_eq_id hone
    have hpd2 : pd.2 = d := by
      have hp1 : pd.1 = p := by rw [hpath, hp]
      have hmem : (p, pd.2) ∈ files' := by
        rw [← hp1, Prod.mk.eta]
        exact hpd
      exact lookupA_unique hnd' hlookp hmem
    rw [hpd2, hd, parseDoc_serializeRecord] at hparse
    injection hparse with he
    exact he.symm
  have hhit : ∃ pd ∈ files', loadOne s.storage_dir pd = some
      (context_id,
        ⟨(r.history).map (fun l => l.map (fun e => Entry.plain (serializeEntry e))),
         r.last_updated, r.metadata⟩) := by
    refine ⟨(p, d), lookupA_mem hlookp, ?_⟩
    rw [hp, hd]
    exact loadOne_ctxPath _ _ _ _ hid (parseDoc_serializeRecord r)
  show lookupA context_id (loadContexts s.storage_dir files') = _
  rw [loadContexts, lookupA_loadContexts_foldl]
  exact loadContexts_foldl_hit _ _ _ files' (lookupA context_id ([] : List (String × ContextRecord))) huniq hhit

/-- State for the C5 counterexample and witness: one context whose
history holds a single self-serializing message object. -/
def stateC5 : CMState :=
  { storage_dir := "contexts"
    contexts := [("c", ⟨some [Entry.msg msgHello], some 7, some (.obj [])⟩)]
    files := [] }

/-- C5 as stated is false: after a save/reload cycle, the history of a
record that held a self-serializing entry is not equal to the
pre-restart history — the entry comes back as plain data, not as the
original message object. -/
theorem save_reload_not_identity :
    lookupA "c" (initState "contexts" (save_context envOK stateC5 "c").files).contexts =
      some ⟨some [Entry.plain (PlainVal.obj
              [("role", PlainVal.str "user"), ("content", PlainVal.str "hello")])],
            some 7, some (.obj [])⟩ ∧
    some [Entry.plain (PlainVal.obj
        [("role", PlainVal.str "user"), ("content", PlainVal.str "hello")])] ≠
      (⟨some [Entry.msg msgHello], some 7, some (.obj [])⟩ : ContextRecord).history := by
  constructor
  · rfl
  · intro hcon
    simp [msgHello] at hcon

theorem save_reload_roundtrip_witness :
    lookupA "c" (initState "contexts" (save_context envOK stateC5 "c").files).contexts =
      some ⟨some [Entry.plain msgHello.model_dump], some 7, some (.obj [])⟩ :=
  save_reload_roundtrip envOK stateC5 "c"
    ⟨some [Entry.msg msgHello], some 7, some (.obj [])⟩
    (by decide) rfl (by decide) rfl

/-! ## C8 — identifier handling -/

/-- C8 (amended): the identifier-to-filename mapping
(`f"{context_id}.json"` under the storage dir) is deterministic and
injective as a string map — no silent sanitization can collide two
identifiers — but no operation validates identifiers: for any
identifier, traversal characters included, `save_context` writes and
`delete_context` removes the file at the derived path, with no
malformed-identifier error anywhere. -/
theorem identifier_not_validated :
    (∀ dir a b : String, ctxPath dir a = ctxPath dir b → a = b) ∧
    (∀ (env : Env) (s : CMState) (context_id : String) (r : ContextRecord),
      lookupA context_id s.contexts = some r →
      env.writeFails (ctxPath s.storage_dir context_id) = false →
      lookupA (ctxPath s.storage_dir context_id)
        (save_context env s context_id).files = some (serializeRecord r)) ∧
    (∀ (env : Env) (s : CMState) (context_id : String) (r : ContextRecord),
      lookupA context_id s.contexts = some r →
      env.removeFails (ctxPath s.storage_dir context_id) = false →
      delete_context env s context_id = .ok true
        { s with
          contexts := eraseA context_id s.contexts
          files := eraseA (ctxPath s.storage_dir context_id) s.files }) := by
  refine ⟨?_, ?_, ?_⟩
  · intro dir a b h
    have hd := congrArg String.data h
    rw [ctxPath_data, ctxPath_data] at hd
    have h1 := List.append_cancel_left hd
    have h2 := List.append_cancel_right h1
    exact String.ext h2
  · intro env s context_id r hl hw
    rw [save_context_of_present hl hw]
    exact lookupA_updateA_self _ _ _
  · intro env s context_id r hl hrm
    exact delete_context_present hl hrm

/-- State for the C8 counterexample: a context whose identifier contains
a path traversal. -/
def stateC8 : CMState :=
  { storage_dir := "contexts"
    contexts := [("../evil", freshRecord 3)]
    files := [] }

/-- C8 as stated is false: the traversal identifier `"../evil"` is not
rejected by any operation — `save_context` writes the file at the
traversal path `"contexts/../evil.json"` (outside the storage dir) and
`delete_context` then removes it, both completing normally with no
malformed-identifier error. -/
theorem traversal_id_reaches_filesystem :
    (save_context envOK stateC8 "../evil").files =
      [("contexts/../evil.json", serializeRecord (freshRecord 3))] ∧
    delete_context envOK (save_context envOK stateC8 "../evil") "../evil" =
      .ok true { storage_dir := "contexts", contexts := [], files := [] } := by
  constructor
  · rfl
  · rfl

theorem identifier_not_validated_witness :
    "../evil" ≠ "../other" ∧
    ctxPath "contexts" "../evil" ≠ ctxPath "contexts" "../other" ∧
    lookupA (ctxPath "contexts" "../evil")
      (save_context envOK stateC8 "../evil").files =
      some (serializeRecord (freshRecord 3)) := by
  refine ⟨by decide, ?_, ?_⟩
  · intro hcon
    exact absurd (identifier_not_validated.1 "contexts" "../evil" "../other" hcon)
      (by decide)
  · exact identifier_not_validated.2.1 envOK stateC8 "../evil" (freshRecord 3) rfl rfl

/-! ## C9 — exception containment -/

/-- C9 (amended): as long as every `os.remove` the sweep or a delete
performs succeeds, no public operation raises — load and save failures
are swallowed inside the store.  (The exception that remains, shown by
the counterexample, is an `os.remove` failure, which propagates.) -/
theorem failures_contained_when_remove_succeeds (env : Env)
    (hrm : ∀ p, env.removeFails p = false) (now : Nat) (s : CMState)
    (context_id : String) (m : A2AMessage) :
    (∃ r s', get_context env now s context_id = .ok r s') ∧
    (∃ r s', add_message env now s context_id m = .ok r s') ∧
    (∃ h s', get_history env now s context_id = .ok h s') ∧
    (∃ b s', clear_context env now s context_id = (b, s')) ∧
    (∃ b s', delete_context env s context_id = .ok b s') := by
  refine ⟨get_context_ok_total env hrm now s context_id,
    add_message_ok_total env hrm now s context_id m, ?_, ?_, ?_⟩
  · obtain ⟨r, s', hg⟩ := get_context_ok_total env hrm now s context_id
    exact ⟨_, _, by rw [get_history, hg]⟩
  · exact ⟨_, _, rfl⟩
  · rcases hl : lookupA context_id s.contexts with _ | r
    · exact ⟨false, s, delete_context_absent hl⟩
    · exact ⟨true, _, delete_context_present hl (hrm _)⟩

/-- The environment for the C9 counterexample: removing the expired
context's file raises an `OSError`. -/
def envFailC9 : Env :=
  ⟨fun p => decide (p = ctxPath "contexts" "old"), fun _ => false⟩

/-- State for the C9 counterexample: an expired record whose durable
file is present. -/
def stateC9 : CMState :=
  { storage_dir := "contexts"
    contexts := [("old", ⟨some [], some 0, some (.obj [])⟩)]
    files := [(ctxPath "contexts" "old",
      serializeRecord ⟨some [], some 0, some (.obj [])⟩)] }

/-- C9 as stated is false: a file-removal failure during the expiration
sweep propagates out of `get_context` (hence out of get-or-create,
`get_history` and `add_message`) to the caller — here a lookup of a
completely different identifier raises the `OSError` from removing the
expired record's file. -/
theorem sweep_remove_error_escapes :
    get_context envFailC9 86401 stateC9 "other" =
      .err (.osError (ctxPath "contexts" "old"))
        { storage_dir := "contexts", contexts := [], files := stateC9.files } := by
  rfl

theorem failures_contained_witness :
    (∃ r s', get_context envOK 86401 stateC9 "other" = .ok r s') ∧
    (∃ r s', add_message envOK 86401 stateC9 "other" msgHello = .ok r s') ∧
    (∃ h s', get_history envOK 86401 stateC9 "other" = .ok h s') ∧
    (∃ b s', clear_context envOK 86401 stateC9 "other" = (b, s')) ∧
    (∃ b s', delete_context envOK stateC9 "other" = .ok b s') :=
  failures_contained_when_remove_succeeds envOK (fun _ => rfl) 86401 stateC9
    "other" msgHello

end ContextStore
